import Mathlib

/-!
Verification development for the `highlight-html-changes.py` script of the
UCD-SERG lab-manual repository.  The Python source is shallowly embedded:
documents and text are `List Char`, the regular-expression scans used by the
script are embedded as a small backtracking pattern matcher with the exact
patterns of the source, and `difflib.SequenceMatcher` (the similarity engine
the script calls) is embedded following CPython's `difflib` implementation
(with `isjunk = None`, as the script always constructs it, so the junk set is
empty, and with the `autojunk` popularity heuristic included).
-/

set_option maxHeartbeats 1000000
set_option linter.unusedVariables false

attribute [local semireducible] Rat.mul Rat.inv Rat.add Rat.sub

namespace LabManual

/-- The whitespace test of Python's `str.strip` / the regex class `\s`,
restricted to the ASCII whitespace characters (all documents handled by the
script are ASCII in the relevant positions). -/
def pySpace (c : Char) : Bool :=
  c = ' ' || c = '\t' || c = '\n' || c = '\r' || c = '\x0b' || c = '\x0c'

/-- Python `str.strip()`: drop leading and trailing whitespace. -/
def pyStrip (s : List Char) : List Char :=
  (((s.dropWhile pySpace).reverse).dropWhile pySpace).reverse

theorem length_dropWhile_le {α : Type} (p : α → Bool) (l : List α) :
    (l.dropWhile p).length ≤ l.length := by
  induction l with
  | nil => simp
  | cons a l ih =>
    rw [List.dropWhile_cons]
    split
    · exact Nat.le_trans ih (by simp)
    · exact le_rfl

/-- First index at which `lit` occurs as a substring of `s`
(`str.find` / the match position of `re.search` on an escaped literal). -/
def findIdx? (lit : List Char) : List Char → Option Nat
  | [] => if lit = [] then some 0 else none
  | c :: rest =>
    if lit.isPrefixOf (c :: rest) then some 0
    else (findIdx? lit rest).map (· + 1)

/-- Whether `lit` occurs as a substring of `s`. -/
def containsSub (lit s : List Char) : Bool :=
  (findIdx? lit s).isSome

/-- `re.sub(re.escape(lit), repl, s, count=1)` for a non-empty literal and a
replacement free of backslash escapes: replace the first occurrence of `lit`
in `s` by `repl`; if there is none, return `s` unchanged. -/
def replaceFirst (lit repl s : List Char) : List Char :=
  match findIdx? lit s with
  | none => s
  | some p => s.take p ++ repl ++ s.drop (p + lit.length)

/-- One pass of Python `str.replace(old, new)` with explicit fuel (the fuel
is only a structural-recursion device; the wrapper passes enough for any
input, so the semantics are those of `str.replace`: all non-overlapping
occurrences, left to right, for a non-empty `old`). -/
def replaceAllGo (old new : List Char) : Nat → List Char → List Char
  | 0, s => s
  | _, [] => []
  | fuel + 1, c :: rest =>
    if old.isPrefixOf (c :: rest) ∧ old ≠ [] then
      new ++ replaceAllGo old new fuel ((c :: rest).drop old.length)
    else
      c :: replaceAllGo old new fuel rest

/-- Python `str.replace(old, new)` for a non-empty `old`. -/
def replaceAll (old new s : List Char) : List Char :=
  replaceAllGo old new s.length s

/-- Accumulating scanner for the token split: `p` is the whitespace class of
the current run, `cur` the current run reversed. -/
def tokenizeGo (p : Bool) (cur : List Char) : List Char → List (List Char)
  | [] => [cur.reverse]
  | c :: rest =>
    if pySpace c = p then tokenizeGo p (c :: cur) rest
    else cur.reverse :: tokenizeGo (pySpace c) [c] rest

/-- The token split of `highlight_text_diff`:
`re.findall(r'\S+|\s+', text)`, i.e. the maximal runs of non-whitespace and
of whitespace, in order. -/
def tokenize : List Char → List (List Char)
  | [] => []
  | c :: rest => tokenizeGo (pySpace c) [c] rest

theorem tokenizeGo_join (rest : List Char) :
    ∀ (p : Bool) (cur : List Char),
      (tokenizeGo p cur rest).flatten = cur.reverse ++ rest := by
  induction rest with
  | nil => intro p cur; simp [tokenizeGo]
  | cons c rest ih =>
    intro p cur
    rw [tokenizeGo]
    by_cases h : pySpace c = p
    · rw [if_pos h, ih]
      simp
    · rw [if_neg h]
      simp only [List.flatten_cons, ih]
      simp

theorem tokenize_join (s : List Char) : (tokenize s).flatten = s := by
  cases s with
  | nil => rfl
  | cons c rest =>
    rw [tokenize, tokenizeGo_join]
    rfl

/-- `html.escape(s)` with `quote=True` (the call in `highlight_text_diff`):
ampersands, angle brackets and both quote characters are replaced by
character references. -/
def escapeHtml (s : List Char) : List Char :=
  s.flatMap fun c =>
    if c = '&' then "&amp;".data
    else if c = '<' then "&lt;".data
    else if c = '>' then "&gt;".data
    else if c = '"' then "&quot;".data
    else if c = '\'' then "&#x27;".data
    else [c]

/-- `html.unescape`, abbreviated to the named and numeric character
references actually exercised in this development (`&amp;` `&lt;` `&gt;`
`&quot;` `&#39;` `&#x27;`); every other ampersand is kept verbatim, as
CPython does for unrecognized references. -/
def unescapeHtml : List Char → List Char
  | [] => []
  | '&' :: 'a' :: 'm' :: 'p' :: ';' :: rest => '&' :: unescapeHtml rest
  | '&' :: 'l' :: 't' :: ';' :: rest => '<' :: unescapeHtml rest
  | '&' :: 'g' :: 't' :: ';' :: rest => '>' :: unescapeHtml rest
  | '&' :: 'q' :: 'u' :: 'o' :: 't' :: ';' :: rest => '"' :: unescapeHtml rest
  | '&' :: '#' :: '3' :: '9' :: ';' :: rest => '\'' :: unescapeHtml rest
  | '&' :: '#' :: 'x' :: '2' :: '7' :: ';' :: rest => '\'' :: unescapeHtml rest
  | c :: rest => c :: unescapeHtml rest

/-- `re.sub(r'<[^>]+>', '', s)` — the tag stripper of
`extract_text_from_element`.  At each `<` the scanner takes the maximal run
of non-`>` characters; if that run is non-empty and followed by `>`, the
whole `<...>` span is dropped, otherwise the `<` is kept and scanning
resumes one character later (exactly the leftmost-match behaviour of
`re.sub` for this pattern). -/
def stripTagsGo : Option (List Char) → List Char → List Char
  | none, [] => []
  | none, c :: rest =>
    if c = '<' then stripTagsGo (some []) rest
    else c :: stripTagsGo none rest
  | some buf, [] => '<' :: buf.reverse
  | some buf, c :: rest =>
    if c = '>' then
      if buf = [] then '<' :: '>' :: stripTagsGo none rest
      else stripTagsGo none rest
    else stripTagsGo (some (c :: buf)) rest

def stripTags (s : List Char) : List Char :=
  stripTagsGo none s

/-- Whether `s` contains a substring matching `<[^>]+>` (a complete markup
tag shape).  Used to state that tag stripping leaves no tag behind. -/
def hasTag : List Char → Bool
  | [] => false
  | c :: rest =>
    if c = '<' then
      let ys := rest.takeWhile (fun d => d ≠ '>')
      if ys ≠ [] ∧ rest.drop ys.length ≠ [] then true
      else hasTag rest
    else hasTag rest

/-- `extract_text_from_element`: strip nested tags, unescape HTML entities,
trim surrounding whitespace. -/
def extractText (elementHtml : List Char) : List Char :=
  pyStrip (unescapeHtml (stripTags elementHtml))

/-!
A small backtracking pattern matcher covering exactly the regular-expression
features the script uses: literals, single-character classes, greedy and lazy
stars of a character class (`[^>]*`, `[^"]*`, and `.*` / `.*?` under
`re.DOTALL`), ordered alternation of literals, and group boundaries
(`mark`).  Greedy stars try the longest extent first and backtrack;
lazy stars try the shortest first; alternation tries the branches in the
order written, with backtracking — the semantics of Python's `re`.
-/

inductive Pat where
  | done : Pat
  | lit : List Char → Pat → Pat
  | one : (Char → Bool) → Pat → Pat
  | starG : (Char → Bool) → Pat → Pat
  | starL : (Char → Bool) → Pat → Pat
  | alts : List (List Char) → Pat → Pat
  | mark : Pat → Pat

/-- Greedy star: consume `j` characters of the maximal run, longest first,
then try the continuation, backtracking to shorter extents. -/
def tryG (next : List Char → Option (List Char × List Nat)) (s : List Char) :
    Nat → Option (List Char × List Nat)
  | 0 => next s
  | j + 1 => (next (s.drop (j + 1))).orElse (fun _ => tryG next s j)

/-- Lazy star: consume `j` characters, shortest first, up to `j + rem`. -/
def tryL (next : List Char → Option (List Char × List Nat)) (s : List Char)
    (j : Nat) : Nat → Option (List Char × List Nat)
  | 0 => next (s.drop j)
  | rem + 1 => (next (s.drop j)).orElse (fun _ => tryL next s (j + 1) rem)

/-- Ordered alternation over literal branches, with backtracking. -/
def tryAlts (next : List Char → Option (List Char × List Nat))
    (s : List Char) : List (List Char) → Option (List Char × List Nat)
  | [] => none
  | c :: crest =>
    if c.isPrefixOf s then
      (next (s.drop c.length)).orElse (fun _ => tryAlts next s crest)
    else tryAlts next s crest

/-- Try to match `p` at the start of `s`.  On success, return the remaining
suffix together with the list of recorded group boundaries, each stored as
the length of the suffix remaining at that boundary. -/
def matchPat : Pat → List Char → Option (List Char × List Nat)
  | .done, s => some (s, [])
  | .lit cs k, s =>
    if cs.isPrefixOf s then matchPat k (s.drop cs.length) else none
  | .one p k, s =>
    match s with
    | [] => none
    | c :: r => if p c then matchPat k r else none
  | .starG p k, s => tryG (matchPat k) s (s.takeWhile p).length
  | .starL p k, s => tryL (matchPat k) s 0 (s.takeWhile p).length
  | .alts cs k, s => tryAlts (matchPat k) s cs
  | .mark k, s => (matchPat k s).map (fun r => (r.1, s.length :: r.2))

/-- `re.search`: try the pattern at every position, leftmost match wins.
Returns `(text before the match, matched span, group boundaries as offsets
from the match start, text after the match)`. -/
def searchPat (p : Pat) : List Char → Option (List Char × List Char × List Nat × List Char)
  | [] =>
    match matchPat p [] with
    | some (rest, ms) => some ([], [], ms.map (fun m => 0 - m), rest)
    | none => none
  | c :: r =>
    match matchPat p (c :: r) with
    | some (rest, ms) =>
      some ([], (c :: r).take ((c :: r).length - rest.length),
        ms.map (fun m => (c :: r).length - m), rest)
    | none =>
      (searchPat p r).map (fun q => (c :: q.1, q.2.1, q.2.2.1, q.2.2.2))

/-- Scanner of `re.findall` with structural fuel (the wrapper passes enough
fuel for every input, and none of the patterns used by the script can match
the empty string, so the two guards are never hit in practice). -/
def findallGo (p : Pat) : Nat → List Char → List (List Char)
  | 0, _ => []
  | fuel + 1, s =>
    match searchPat p s with
    | none => []
    | some (_, matched, _, rest) =>
      if matched = [] then [] else matched :: findallGo p fuel rest

/-- `re.findall`: all non-overlapping matches, scanning left to right and
continuing after each match end. -/
def findallPat (p : Pat) (s : List Char) : List (List Char) :=
  findallGo p (s.length + 1) s

/-- Scanner of `re.sub` (no count) with structural fuel. -/
def subAllGo (p : Pat) (repl : List Char → List Nat → List Char) :
    Nat → List Char → List Char
  | 0, s => s
  | fuel + 1, s =>
    match searchPat p s with
    | none => s
    | some (pre, matched, ms, rest) =>
      if matched = [] then s
      else pre ++ repl matched ms ++ subAllGo p repl fuel rest

/-- `re.sub` without a count: replace every non-overlapping match, building
the replacement from the matched span and its group boundaries; replacement
text is not rescanned. -/
def subAllPat (p : Pat) (repl : List Char → List Nat → List Char)
    (s : List Char) : List Char :=
  subAllGo p repl (s.length + 1) s

/-- The allow-listed element kinds `p|h[1-6]|li|blockquote`, in Python's
alternation order (the character class `[1-6]` expanded to the equivalent
ordered literals). -/
def comparableKinds : List (List Char) :=
  ["p".data, "h1".data, "h2".data, "h3".data, "h4".data, "h5".data,
   "h6".data, "li".data, "blockquote".data]

/-- The element pattern of `highlight_changed_elements`:
`(<(?:p|h[1-6]|li|blockquote)[^>]*>.*?</(?:p|h[1-6]|li|blockquote)>)`
under `re.DOTALL`. -/
def elementPat : Pat :=
  .lit "<".data (.alts comparableKinds
    (.starG (fun c => c ≠ '>') (.lit ">".data
      (.starL (fun _ => true)
        (.lit "</".data (.alts comparableKinds (.lit ">".data .done)))))))

/-- `re.findall` of the element pattern over a content fragment. -/
def findallElements (content : List Char) : List (List Char) :=
  findallPat elementPat content

/-- The main-content pattern `<main[^>]*>(.*?)</main>` under `re.DOTALL`. -/
def mainPat : Pat :=
  .lit "<main".data (.starG (fun c => c ≠ '>') (.lit ">".data
    (.mark (.starL (fun _ => true) (.mark (.lit "</main>".data .done))))))

/-- The fallback content-container pattern
`<div[^>]*class="[^"]*content[^"]*"[^>]*>(.*?)</div>` under `re.DOTALL`. -/
def contentDivPat : Pat :=
  .lit "<div".data (.starG (fun c => c ≠ '>')
    (.lit "class=\"".data (.starG (fun c => c ≠ '"')
      (.lit "content".data (.starG (fun c => c ≠ '"')
        (.lit "\"".data (.starG (fun c => c ≠ '>')
          (.lit ">".data
            (.mark (.starL (fun _ => true) (.mark (.lit "</div>".data .done))))))))))))

/-- `extract_main_content`: first `<main>` body, else first content-class
`<div>` body, else the whole document. -/
def extractMainContent (html : List Char) : List Char :=
  match searchPat mainPat html with
  | some (_, matched, [g1, g2], _) => (matched.drop g1).take (g2 - g1)
  | some _ => html
  | none =>
    match searchPat contentDivPat html with
    | some (_, matched, [g1, g2], _) => (matched.drop g1).take (g2 - g1)
    | _ => html

/-- The split pattern of the highlighting branches:
`re.match(r'(<[^>]+>)(.*)(</[^>]+>)', elem, re.DOTALL)`, returning the
`(open_tag, inner_content, close_tag)` groups when it matches.  The match is
anchored at the start but need not consume the whole string, exactly as
`re.match` behaves. -/
def tagPat : Pat :=
  .lit "<".data (.one (fun c => c ≠ '>') (.starG (fun c => c ≠ '>')
    (.lit ">".data (.mark (.starG (fun _ => true)
      (.mark (.lit "</".data (.one (fun c => c ≠ '>')
        (.starG (fun c => c ≠ '>') (.lit ">".data .done))))))))))

def tagMatch (elem : List Char) : Option (List Char × List Char × List Char) :=
  match matchPat tagPat elem with
  | none => none
  | some (rest, ms) =>
    let en := elem.length - rest.length
    match ms.map (fun m => elem.length - m) with
    | [o1, o2] =>
      some (elem.take o1, (elem.drop o1).take (o2 - o1), (elem.drop o2).take (en - o2))
    | _ => none

/-!
Embedding of CPython's `difflib.SequenceMatcher`, the similarity engine the
script uses both at character level (element matching, whole-document
similarity) and at token level (`highlight_text_diff`).  The script always
constructs `SequenceMatcher(None, a, b)`, so `isjunk` is `None`: the junk
set `bjunk` is empty, while the `autojunk` heuristic (elements occurring in
more than 1% of a `b` of length ≥ 200 are dropped from the index `b2j`) is
active and embedded below.
-/

/-- The `Match` triple returned by `find_longest_match`. -/
structure FLMatch where
  i : Nat
  j : Nat
  size : Nat
deriving DecidableEq, Repr

section SeqMatcher

variable {α : Type} [DecidableEq α]

/-- Append an occurrence index to the entry of `key` in the association
list, keeping first-seen key order and ascending index lists (the shape
`b2j.setdefault(elt, []).append(i)` produces). -/
def insertB2j (acc : List (α × List Nat)) (key : α) (idx : Nat) :
    List (α × List Nat) :=
  match acc with
  | [] => [(key, [idx])]
  | (k, is) :: rest =>
    if k = key then (k, is ++ [idx]) :: rest
    else (k, is) :: insertB2j rest key idx

def lookupB2j (acc : List (α × List Nat)) (key : α) : List Nat :=
  match acc with
  | [] => []
  | (k, is) :: rest => if k = key then is else lookupB2j rest key

/-- `__chain_b`: build `b2j` and, when `autojunk` applies (`len(b) >= 200`),
delete the popular elements (more than `n // 100 + 1` occurrences) from it.
With `isjunk = None` the junk set itself stays empty. -/
def chainB (b : List α) : List (α × List Nat) :=
  let b2j := (b.enum).foldl (fun acc p => insertB2j acc p.2 p.1) []
  let n := b.length
  if 200 ≤ n then
    let ntest := n / 100 + 1
    b2j.filter (fun p => ¬ ntest < p.2.length)
  else b2j

/-- One step of the `find_longest_match` dynamic programme: process row `i`,
scanning the `b`-indices of `a[i]` in ascending order, building the new
`j2len` table and updating the running best on strict improvement. -/
def dpStep (b2j : List (α × List Nat)) (a : List α) (blo bhi : Nat)
    (st : (Nat → Nat) × FLMatch) (i : Nat) : (Nat → Nat) × FLMatch :=
  let js := (match a.get? i with
    | some c => lookupB2j b2j c
    | none => []).filter (fun j => decide (blo ≤ j) && decide (j < bhi))
  js.foldl (fun acc j =>
      let k := (if j = 0 then 0 else st.1 (j - 1)) + 1
      ((fun x => if x = j then k else acc.1 x),
       if acc.2.size < k then ⟨i + 1 - k, j + 1 - k, k⟩ else acc.2))
    ((fun _ => 0), st.2)

/-- The dynamic-programming phase of `find_longest_match` over rows
`alo ≤ i < ahi`. -/
def dpLoop (b2j : List (α × List Nat)) (a : List α)
    (alo ahi blo bhi : Nat) : FLMatch :=
  ((List.range' alo (ahi - alo)).foldl (dpStep b2j a blo bhi)
    ((fun _ => 0), ⟨alo, blo, 0⟩)).2

/-- The element comparison of the extension loops:
`(not) isbjunk(b[jpos]) and a[ipos] == b[jpos]`, with `wantJunk` selecting
between the non-junk loops (`false`) and the junk-absorbing loops
(`true`). -/
def extCond (a b : List α) (bjunk : α → Bool) (wantJunk : Bool)
    (ipos jpos : Nat) : Bool :=
  match b.get? jpos with
  | some c => bjunk c = wantJunk && a.get? ipos = some c
  | none => false

/-- First extension loop: grow the best block leftwards over equal elements
of the selected junk class.  Structural fuel: the loop moves `i` down one
per step, so fuel `i` is always sufficient and exhaustion coincides with the
guard `alo < i` failing at `i = 0`. -/
def extLeftGo (a b : List α) (bjunk : α → Bool) (wantJunk : Bool)
    (alo blo : Nat) : Nat → Nat → Nat → Nat → FLMatch
  | 0, i, j, size => ⟨i, j, size⟩
  | fuel + 1, i, j, size =>
    if alo < i ∧ blo < j ∧ extCond a b bjunk wantJunk (i - 1) (j - 1) then
      extLeftGo a b bjunk wantJunk alo blo fuel (i - 1) (j - 1) (size + 1)
    else ⟨i, j, size⟩

def extLeft (a b : List α) (bjunk : α → Bool) (wantJunk : Bool)
    (alo blo : Nat) (i j size : Nat) : FLMatch :=
  extLeftGo a b bjunk wantJunk alo blo i i j size

/-- Second extension loop: grow the best block rightwards over equal
elements of the selected junk class.  Structural fuel: each step raises
`i + size` by one, and the guard `i + size < ahi` fails after at most `ahi`
steps, so fuel `ahi` is always sufficient. -/
def extRightGo (a b : List α) (bjunk : α → Bool) (wantJunk : Bool)
    (ahi bhi : Nat) : Nat → Nat → Nat → Nat → FLMatch
  | 0, i, j, size => ⟨i, j, size⟩
  | fuel + 1, i, j, size =>
    if i + size < ahi ∧ j + size < bhi ∧
        extCond a b bjunk wantJunk (i + size) (j + size) then
      extRightGo a b bjunk wantJunk ahi bhi fuel i j (size + 1)
    else ⟨i, j, size⟩

def extRight (a b : List α) (bjunk : α → Bool) (wantJunk : Bool)
    (ahi bhi : Nat) (i j size : Nat) : FLMatch :=
  extRightGo a b bjunk wantJunk ahi bhi ahi i j size

/-- `find_longest_match(alo, ahi, blo, bhi)`: dynamic programme followed by
the four extension loops (non-junk left, non-junk right, junk-absorbing
left, junk-absorbing right; the junk-absorbing pair is vacuous for the
script since its junk set is empty, but is kept for fidelity). -/
def findLongestMatch (a b : List α) (b2j : List (α × List Nat))
    (bjunk : α → Bool) (alo ahi blo bhi : Nat) : FLMatch :=
  let m0 := dpLoop b2j a alo ahi blo bhi
  let m1 := extLeft a b bjunk false alo blo m0.i m0.j m0.size
  let m2 := extRight a b bjunk false ahi bhi m1.i m1.j m1.size
  let m3 := extLeft a b bjunk true alo blo m2.i m2.j m2.size
  extRight a b bjunk true ahi bhi m3.i m3.j m3.size

/-- The recursion of `get_matching_blocks` over sub-rectangles.  CPython
collects the blocks through an explicit queue and sorts them afterwards;
since the two sub-rectangles lie entirely below-left and above-right of the
found block, in-order recursion produces exactly that sorted list.  The
bound checks in the guard always hold for the `Match` difflib returns and
only serve termination. -/
def matchingBlocksGo (a b : List α) (b2j : List (α × List Nat))
    (bjunk : α → Bool) : Nat → Nat → Nat → Nat → Nat → List FLMatch
  | 0, _, _, _, _ => []
  | fuel + 1, alo, ahi, blo, bhi =>
    match findLongestMatch a b b2j bjunk alo ahi blo bhi with
    | ⟨mi, mj, msz⟩ =>
      if msz ≠ 0 ∧ alo ≤ mi ∧ mi + msz ≤ ahi ∧ blo ≤ mj ∧ mj + msz ≤ bhi then
        matchingBlocksGo a b b2j bjunk fuel alo mi blo mj ++ [⟨mi, mj, msz⟩] ++
          matchingBlocksGo a b b2j bjunk fuel (mi + msz) ahi (mj + msz) bhi
      else []

def matchingBlocksRec (a b : List α) (b2j : List (α × List Nat))
    (bjunk : α → Bool) (alo ahi blo bhi : Nat) : List FLMatch :=
  matchingBlocksGo a b b2j bjunk ((ahi - alo) + (bhi - blo) + 1) alo ahi blo bhi

/-- The adjacent-block collapsing pass of `get_matching_blocks`, followed by
the terminating sentinel `(la, lb, 0)`. -/
def collapseBlocks (la lb : Nat) (blocks : List FLMatch) : List FLMatch :=
  let st := blocks.foldl (fun (st : List FLMatch × FLMatch) m2 =>
      let acc := st.1
      let m1 := st.2
      if m1.i + m1.size = m2.i ∧ m1.j + m1.size = m2.j then
        (acc, ⟨m1.i, m1.j, m1.size + m2.size⟩)
      else
        ((if m1.size ≠ 0 then acc ++ [m1] else acc), m2))
    ([], ⟨0, 0, 0⟩)
  (if st.2.size ≠ 0 then st.1 ++ [st.2] else st.1) ++ [⟨la, lb, 0⟩]

/-- `get_matching_blocks` for `SequenceMatcher(None, a, b)`. -/
def getMatchingBlocks (a b : List α) : List FLMatch :=
  collapseBlocks a.length b.length
    (matchingBlocksRec a b (chainB b) (fun _ => false) 0 a.length 0 b.length)

/-- The opcode tags of `get_opcodes`. -/
inductive DiffTag where
  | equal | replace | delete | insert
deriving DecidableEq, Repr

structure Opcode where
  tag : DiffTag
  i1 : Nat
  i2 : Nat
  j1 : Nat
  j2 : Nat
deriving DecidableEq, Repr

/-- `get_opcodes`, computed from a matching-block list. -/
def opcodesOfBlocks (blocks : List FLMatch) : List Opcode :=
  (blocks.foldl (fun (st : Nat × Nat × List Opcode) m =>
      let i := st.1
      let j := st.2.1
      let acc := st.2.2
      let acc :=
        if i < m.i ∧ j < m.j then acc ++ [⟨.replace, i, m.i, j, m.j⟩]
        else if i < m.i then acc ++ [⟨.delete, i, m.i, j, m.j⟩]
        else if j < m.j then acc ++ [⟨.insert, i, m.i, j, m.j⟩]
        else acc
      let acc :=
        if m.size ≠ 0 then
          acc ++ [⟨.equal, m.i, m.i + m.size, m.j, m.j + m.size⟩]
        else acc
      (m.i + m.size, m.j + m.size, acc))
    (0, 0, [])).2.2

/-- `get_opcodes` for `SequenceMatcher(None, a, b)`. -/
def getOpcodes (a b : List α) : List Opcode :=
  opcodesOfBlocks (getMatchingBlocks a b)

/-- `ratio()`: twice the number of matched elements over the total length,
or `1.0` when both sequences are empty. -/
def seqRatio (a b : List α) : ℚ :=
  let matchedTotal := ((getMatchingBlocks a b).map (·.size)).sum
  let length := a.length + b.length
  if length ≠ 0 then (2 * matchedTotal : ℚ) / length else 1

end SeqMatcher

/-!
The highlighting pipeline of `HTMLDiffer`.
-/

/-- Python slice `l[x:y]` for `0 ≤ x ≤ y`. -/
def sliceL {β : Type} (l : List β) (x y : Nat) : List β :=
  (l.drop x).take (y - x)

/-- The `replace` marker of `highlight_text_diff`: the new span wrapped in a
changed-mark whose `title` carries the escaped old span. -/
def markChanged (oldSpan newSpan : List Char) : List Char :=
  "<mark class=\"preview-text-changed\" title=\"Modified from: ".data ++
    escapeHtml oldSpan ++ "\">".data ++ newSpan ++ "</mark>".data

/-- The `insert` marker of `highlight_text_diff`. -/
def markInserted (newSpan : List Char) : List Char :=
  "<mark class=\"preview-text-added\">".data ++ newSpan ++ "</mark>".data

/-- The whole-element marker of the added branch of
`highlight_changed_elements`. -/
def markAddedElem (text : List Char) : List Char :=
  "<mark class=\"preview-element-added\">".data ++ text ++ "</mark>".data

/-- `highlight_text_diff(old_text, new_text)`: tokenize both sides into
word/whitespace runs, take the opcodes of a token-level `SequenceMatcher`,
keep `equal` spans as the new tokens, wrap `replace` and `insert` spans in
markers built from the new side, and drop `delete` spans; join the collected
pieces. -/
def highlightTextDiff (oldText newText : List Char) : List Char :=
  let oldWords := tokenize oldText
  let newWords := tokenize newText
  ((getOpcodes oldWords newWords).foldl (fun acc op =>
    match op.tag with
    | .equal => acc ++ sliceL newWords op.j1 op.j2
    | .replace =>
      acc ++ [markChanged (sliceL oldWords op.i1 op.i2).flatten
        (sliceL newWords op.j1 op.j2).flatten]
    | .insert => acc ++ [markInserted (sliceL newWords op.j1 op.j2).flatten]
    | .delete => acc) []).flatten

/-- `SIMILARITY_THRESHOLD_MIN = 0.5`. -/
def SIMILARITY_THRESHOLD_MIN : ℚ := 1 / 2

/-- `SIMILARITY_THRESHOLD_MAX = 0.99`. -/
def SIMILARITY_THRESHOLD_MAX : ℚ := 99 / 100

/-- The non-empty `(text, element)` pairs extracted from the old content
fragment. -/
def oldElemList (oldContent : List Char) : List (List Char × List Char) :=
  (findallElements oldContent).filterMap (fun e =>
    let t := extractText e
    if t ≠ [] then some (t, e) else none)

/-- The mutable state of the per-element loop of
`highlight_changed_elements`: the working document string, the claimed old
indices, and the running change count. -/
structure HLState where
  doc : List Char
  used : List Nat
  changes : Nat
deriving Repr, DecidableEq

/-- One candidate comparison of the inner matching loop: skip claimed old
indices, otherwise update the running best on strict ratio improvement
(so ties keep the earliest index). -/
def bestStep (used : List Nat) (newText : List Char)
    (best : Option Nat × ℚ) (p : Nat × (List Char × List Char)) :
    Option Nat × ℚ :=
  if p.1 ∈ used then best
  else if best.2 < seqRatio p.2.1 newText then (some p.1, seqRatio p.2.1 newText)
  else best

/-- The inner candidate scan: over the not-yet-claimed old elements, track
the best ratio and its index, starting from `(None, 0.0)`. -/
def bestMatch (oldList : List (List Char × List Char)) (used : List Nat)
    (newText : List Char) : Option Nat × ℚ :=
  (oldList.enum).foldl (bestStep used newText) (none, 0)

/-- The body of the per-new-element loop of `highlight_changed_elements`:
skip empty-text elements; otherwise select the best unclaimed old element;
when the best ratio lies strictly between the two thresholds, claim it and
substitute an inline-diff re-rendering for the first occurrence of the
element; when no old element scored positive, substitute an added-marker
re-rendering; otherwise leave the state unchanged.  In both rewriting
branches a failing open/inner/close split skips the rewrite. -/
def stepFn (oldList : List (List Char × List Char)) (st : HLState)
    (newElem : List Char) : HLState :=
  let newText := extractText newElem
  if newText = [] then st
  else
    let best := bestMatch oldList st.used newText
    match best.1 with
    | some idx =>
      if SIMILARITY_THRESHOLD_MIN < best.2 ∧ best.2 < SIMILARITY_THRESHOLD_MAX then
        let used := idx :: st.used
        let oldText := ((oldList.get? idx).map (·.1)).getD []
        match tagMatch newElem with
        | some (openTag, _, closeTag) =>
          let newInner := extractText newElem
          let helem := openTag ++ highlightTextDiff oldText newInner ++ closeTag
          ⟨replaceFirst newElem helem st.doc, used, st.changes + 1⟩
        | none => ⟨st.doc, used, st.changes⟩
      else st
    | none =>
      match tagMatch newElem with
      | some (openTag, _, closeTag) =>
        let newInner := extractText newElem
        let helem := openTag ++ markAddedElem newInner ++ closeTag
        ⟨replaceFirst newElem helem st.doc, st.used, st.changes + 1⟩
      | none => st

/-- `highlight_changed_elements(old_html, new_html)`: returns the annotated
document and the number of changed elements.  A missing or empty old
document returns the new document with zero changes. -/
def highlightChangedElements (oldHtml : Option (List Char))
    (newHtml : List Char) : List Char × Nat :=
  match oldHtml with
  | none => (newHtml, 0)
  | some old =>
    if old = [] then (newHtml, 0)
    else
      let oldList := oldElemList (extractMainContent old)
      let newElements := findallElements (extractMainContent newHtml)
      let final := newElements.foldl (stepFn oldList) ⟨newHtml, [], 0⟩
      (final.doc, final.changes)

/-- Observation of the matcher: the best-match index selected for each
non-empty new element, in loop order, threading the same state evolution as
`stepFn` (an empty-text element is skipped and yields no selection). -/
def matchSelections (oldList : List (List Char × List Char))
    (newElements : List (List Char)) (st0 : HLState) : List (Option Nat) :=
  (newElements.foldl (fun (p : HLState × List (Option Nat)) e =>
      let t := extractText e
      if t = [] then (stepFn oldList p.1 e, p.2)
      else (stepFn oldList p.1 e, p.2 ++ [(bestMatch oldList p.1.used t).1]))
    (st0, [])).2

/-- The matcher observation for a full run on an old/new document pair. -/
def selectionsOfRun (oldHtml newHtml : List Char) : List (Option Nat) :=
  matchSelections (oldElemList (extractMainContent oldHtml))
    (findallElements (extractMainContent newHtml)) ⟨newHtml, [], 0⟩

/-!
The TOC annotator `highlight_toc_entries` and the notice composer.
-/

/-- The TOC link pattern of `highlight_toc_entries` for one changed file:
`(<a[^>]*href="[^"]*FILE[^"]*"[^>]*class="[^"]*")([^"]*"[^>]*>)`,
with the single group boundary between `...class="[^"]*` and the rest. -/
def tocPat (file : List Char) : Pat :=
  .lit "<a".data (.starG (fun c => c ≠ '>')
    (.lit "href=\"".data (.starG (fun c => c ≠ '"')
      (.lit file (.starG (fun c => c ≠ '"')
        (.lit "\"".data (.starG (fun c => c ≠ '>')
          (.lit "class=\"".data (.starG (fun c => c ≠ '"')
            (.mark (.starG (fun c => c ≠ '"')
              (.lit "\"".data (.starG (fun c => c ≠ '>')
                (.lit ">".data .done))))))))))))))

/-- `add_toc_highlight_class`: re-assemble the two groups with the
highlighting class token inserted between them. -/
def tocReplacement (matched : List Char) (ms : List Nat) : List Char :=
  match ms with
  | [g] => matched.take g ++ " preview-toc-changed".data ++ matched.drop g
  | _ => matched

/-- Python `set` insertion modeled as order-preserving de-duplication (the
script iterates a set of file names; for the properties below the iteration
order is irrelevant or singleton). -/
def dedupKeepFirstGo : Nat → List (List Char) → List (List Char)
  | 0, l => l
  | _, [] => []
  | fuel + 1, x :: rest =>
    x :: dedupKeepFirstGo fuel (rest.filter (fun y => y ≠ x))

def dedupKeepFirst (l : List (List Char)) : List (List Char) :=
  dedupKeepFirstGo l.length l

/-- `highlight_toc_entries(html, changed_files)`: map each changed `.qmd`
name to its `.html` name and, for each, add the highlight class to every
matching TOC link. -/
def highlightTocEntries (html : List Char)
    (changedFiles : List (List Char)) : List Char :=
  if changedFiles = [] then html
  else
    let htmlFiles :=
      dedupKeepFirst (changedFiles.map (replaceAll ".qmd".data ".html".data))
    htmlFiles.foldl (fun h f => subAllPat (tocPat f) tocReplacement h) html

/-- The percentage computation of `inject_change_notice`:
`change_pct = int((1 - similarity) * 100)`.  `int()` truncates toward zero;
for the similarity values the script feeds in (`0 ≤ s ≤ 1`) the operand is
non-negative, so truncation is the floor.  The float arithmetic is modeled
exactly over `ℚ`. -/
def changePct (similarity : ℚ) : ℤ :=
  Int.floor ((1 - similarity) * 100)

/-- The guard of `find_changed_sections`: when the whole-document similarity
exceeds `0.95` no diff is reported and hence no summary notice is
inserted. -/
def summarySkipped (similarity : ℚ) : Bool :=
  95 / 100 < similarity

/-!
A reference model of the substitution semantics the specification describes
(§4.4): each computed annotation replaces "the first remaining occurrence of
the original verbatim markup", where text produced by a previous
substitution is no longer a replacement target.  The working document is a
list of segments; `ann` segments are finished annotation output.
-/

/-- Segment of the specification-level working document. -/
inductive Seg where
  | raw : List Char → Seg
  | ann : List Char → Seg
deriving DecidableEq, Repr

def flattenSegs : List Seg → List Char
  | [] => []
  | .raw s :: rest => s ++ flattenSegs rest
  | .ann s :: rest => s ++ flattenSegs rest

/-- Modelled from the spec: "substitute it for the first remaining
occurrence of the original verbatim markup in the working document string
(exact literal match, single replacement per element, so that identical
adjacent elements are each replaced exactly once in encounter order and
never affect later occurrences of the same literal text elsewhere in the
document)".  The first occurrence inside not-previously-replaced text is
substituted and the substitution is marked ineligible. -/
def replaceFirstRemaining (lit annText : List Char) : List Seg → List Seg
  | [] => []
  | .raw s :: rest =>
    match findIdx? lit s with
    | some p =>
      .raw (s.take p) :: .ann annText :: .raw (s.drop (p + lit.length)) :: rest
    | none => .raw s :: replaceFirstRemaining lit annText rest
  | .ann d :: rest => .ann d :: replaceFirstRemaining lit annText rest

/-- State of the specification-level loop. -/
structure SpecHLState where
  doc : List Seg
  used : List Nat
  changes : Nat

/-- The per-element loop body with the specification's substitution
semantics; identical to `stepFn` except that substitution targets only
remaining (not previously replaced) text. -/
def specStepFn (oldList : List (List Char × List Char)) (st : SpecHLState)
    (newElem : List Char) : SpecHLState :=
  let newText := extractText newElem
  if newText = [] then st
  else
    let best := bestMatch oldList st.used newText
    match best.1 with
    | some idx =>
      if SIMILARITY_THRESHOLD_MIN < best.2 ∧ best.2 < SIMILARITY_THRESHOLD_MAX then
        let used := idx :: st.used
        let oldText := ((oldList.get? idx).map (·.1)).getD []
        match tagMatch newElem with
        | some (openTag, _, closeTag) =>
          let newInner := extractText newElem
          let helem := openTag ++ highlightTextDiff oldText newInner ++ closeTag
          ⟨replaceFirstRemaining newElem helem st.doc, used, st.changes + 1⟩
        | none => ⟨st.doc, used, st.changes⟩
      else st
    | none =>
      match tagMatch newElem with
      | some (openTag, _, closeTag) =>
        let newInner := extractText newElem
        let helem := openTag ++ markAddedElem newInner ++ closeTag
        ⟨replaceFirstRemaining newElem helem st.doc, st.used, st.changes + 1⟩
      | none => st

/-- `highlight_changed_elements` under the specification's substitution
semantics. -/
def specHighlightChangedElements (oldHtml : Option (List Char))
    (newHtml : List Char) : List Char × Nat :=
  match oldHtml with
  | none => (newHtml, 0)
  | some old =>
    if old = [] then (newHtml, 0)
    else
      let oldList := oldElemList (extractMainContent old)
      let newElements := findallElements (extractMainContent newHtml)
      let final := newElements.foldl (specStepFn oldList) ⟨[.raw newHtml], [], 0⟩
      (flattenSegs final.doc, final.changes)

/-!
General helper lemmas about the embedding.
-/

theorem foldl_preserves {β σ : Type} (f : σ → β → σ) (P : σ → Prop)
    (l : List β) (hstep : ∀ s b, b ∈ l → P s → P (f s b)) :
    ∀ s : σ, P s → P (l.foldl f s) := by
  induction l with
  | nil => intro s hs; exact hs
  | cons b rest ih =>
    intro s hs
    exact ih (fun s' b' hb' hs' => hstep s' b' (List.mem_cons_of_mem b hb') hs')
      (f s b) (hstep s b (List.mem_cons_self b rest) hs)

/-- The selection returned by the candidate scan is never an already-claimed
index, and its ratio is the similarity of the selected pair. -/
theorem bestMatch_spec (oldList : List (List Char × List Char))
    (used : List Nat) (t : List Char) (i : Nat) (r : ℚ)
    (h : bestMatch oldList used t = (some i, r)) :
    i ∉ used ∧ ∃ pr, oldList.get? i = some pr ∧ r = seqRatio pr.1 t := by
  have hmem : ∀ p ∈ oldList.enum, oldList.get? p.1 = some p.2 := by
    intro p hp
    rcases p with ⟨k, v⟩
    simpa [List.get?_eq_getElem?] using (List.mk_mem_enum_iff_getElem?.mp hp)
  have main := foldl_preserves (bestStep used t)
    (fun best => ∀ j r', best = (some j, r') → j ∉ used ∧
      ∃ pr, oldList.get? j = some pr ∧ r' = seqRatio pr.1 t)
    (oldList.enum) ?_ (none, 0) ?_
  · unfold bestMatch at h
    exact main i r h
  · intro s p hp hs j r' hj
    unfold bestStep at hj
    by_cases hu : p.1 ∈ used
    · rw [if_pos hu] at hj
      exact hs j r' hj
    · rw [if_neg hu] at hj
      by_cases hlt : s.2 < seqRatio p.2.1 t
      · rw [if_pos hlt] at hj
        obtain ⟨h1, h2⟩ := Prod.mk.injEq .. ▸ hj
        obtain rfl : p.1 = j := Option.some.injEq .. ▸ h1
        exact ⟨hu, p.2, hmem p hp, h2.symm⟩
      · rw [if_neg hlt] at hj
        exact hs j r' hj
  · intro j r' hj
    exact absurd (congrArg Prod.fst hj) (by simp)

/-- When the loop body selects a best match whose ratio is outside the open
interval between the two thresholds, the state is left entirely
unchanged. -/
theorem stepFn_skip (oldList : List (List Char × List Char)) (st : HLState)
    (e : List Char) (idx : Nat) (r : ℚ)
    (hbm : bestMatch oldList st.used (extractText e) = (some idx, r))
    (hnot : ¬ (SIMILARITY_THRESHOLD_MIN < r ∧ r < SIMILARITY_THRESHOLD_MAX)) :
    stepFn oldList st e = st := by
  unfold stepFn
  by_cases hempty : extractText e = []
  · rw [if_pos hempty]
  · rw [if_neg hempty]
    simp only [hbm]
    rw [if_neg hnot]

/-- When no old element scores a positive ratio (selection `None`) and the
open/inner/close split succeeds, the loop body wraps the element's plain
text in the added marker and substitutes the re-rendered element for the
first occurrence, counting one change. -/
theorem stepFn_added (oldList : List (List Char × List Char)) (st : HLState)
    (e openTag innerC closeTag : List Char) (r : ℚ)
    (hempty : extractText e ≠ [])
    (hbm : bestMatch oldList st.used (extractText e) = (none, r))
    (htm : tagMatch e = some (openTag, innerC, closeTag)) :
    stepFn oldList st e =
      ⟨replaceFirst e (openTag ++ markAddedElem (extractText e) ++ closeTag)
        st.doc, st.used, st.changes + 1⟩ := by
  unfold stepFn
  rw [if_neg hempty]
  simp only [hbm, htm]

/-- The loop body preserves distinctness of the claimed old indices: an
index is only ever claimed when the candidate scan returned it, and the scan
skips already-claimed indices. -/
theorem stepFn_used_nodup (oldList : List (List Char × List Char))
    (st : HLState) (e : List Char) (h : st.used.Nodup) :
    ((stepFn oldList st e).used).Nodup := by
  unfold stepFn
  by_cases hempty : extractText e = []
  · rw [if_pos hempty]; exact h
  · rw [if_neg hempty]
    rcases hbm : bestMatch oldList st.used (extractText e) with ⟨b1, b2⟩
    cases b1 with
    | none =>
      simp only [hbm]
      cases htm : tagMatch e with
      | none => simpa [htm] using h
      | some t =>
        rcases t with ⟨o, ic⟩
        rcases ic with ⟨i, c⟩
        simpa [htm] using h
    | some idx =>
      have hnotmem : idx ∉ st.used :=
        (bestMatch_spec oldList st.used (extractText e) idx b2 hbm).1
      simp only [hbm]
      by_cases hcond :
          SIMILARITY_THRESHOLD_MIN < b2 ∧ b2 < SIMILARITY_THRESHOLD_MAX
      · rw [if_pos hcond]
        cases htm : tagMatch e with
        | none => simpa [htm] using List.Nodup.cons hnotmem h
        | some t =>
          rcases t with ⟨o, ic⟩
          rcases ic with ⟨i, c⟩
          simpa [htm] using List.Nodup.cons hnotmem h
      · rw [if_neg hcond]; exact h

/-!
The claims.
-/

/-- Old/new documents for claim C1: the old paragraph text `abcdefgh` and
the new paragraph text `xyzwa` share only the character `a`, giving the
positive best ratio `2/13 ≤ τ_min`. -/
def c1OldDoc : List Char := "<main><p>abcdefgh</p></main>".data

def c1NewDoc : List Char := "<main><p>xyzwa</p></main>".data

/-- Claim C1, counterexample: with a positive best similarity not exceeding
`τ_min = 0.5`, the matcher still selects the old element (the pairing is
`some 0`, not none) and the highlighter leaves the new element completely
unannotated instead of wrapping it in an added-marker span: the run returns
the new document verbatim with zero changes. -/
theorem c1_counterexample :
    seqRatio "abcdefgh".data "xyzwa".data = 2 / 13 ∧
    (2 / 13 : ℚ) ≤ SIMILARITY_THRESHOLD_MIN ∧ (0 : ℚ) < 2 / 13 ∧
    extractText "<p>xyzwa</p>".data ≠ [] ∧
    selectionsOfRun c1OldDoc c1NewDoc = [some 0] ∧
    highlightChangedElements (some c1OldDoc) c1NewDoc = (c1NewDoc, 0) ∧
    containsSub "preview-element-added".data
      (highlightChangedElements (some c1OldDoc) c1NewDoc).1 = false := by
  refine ⟨by decide, by decide, by decide, by decide, by decide, by decide, by decide⟩

/-- Claim C1 (amended): a new element with non-empty plain text is wrapped
whole in an added-marker span only when no unclaimed old element attains a
positive similarity (the selection is `None`); when a best match exists but
its score does not exceed `τ_min = 0.5`, the element is paired with that
candidate's index yet left completely untouched (no annotation, no claim,
no change counted). -/
theorem c1_amended :
    (∀ (oldList : List (List Char × List Char)) (st : HLState)
      (e : List Char) (idx : Nat) (r : ℚ),
      extractText e ≠ [] →
      bestMatch oldList st.used (extractText e) = (some idx, r) →
      r ≤ SIMILARITY_THRESHOLD_MIN →
      stepFn oldList st e = st) ∧
    (∀ (oldList : List (List Char × List Char)) (st : HLState)
      (e openTag innerC closeTag : List Char) (r : ℚ),
      extractText e ≠ [] →
      bestMatch oldList st.used (extractText e) = (none, r) →
      tagMatch e = some (openTag, innerC, closeTag) →
      stepFn oldList st e =
        ⟨replaceFirst e (openTag ++ markAddedElem (extractText e) ++ closeTag)
          st.doc, st.used, st.changes + 1⟩) := by
  constructor
  · intro oldList st e idx r hne hbm hr
    exact stepFn_skip oldList st e idx r hbm (fun hc => absurd hr (not_le.mpr hc.1))
  · intro oldList st e openTag innerC closeTag r hne hbm htm
    exact stepFn_added oldList st e openTag innerC closeTag r hne hbm htm

/-- Concrete instantiation of the amended claim C1 on the `2/13` documents:
the element is left untouched. -/
theorem c1_amended_witness :
    stepFn (oldElemList (extractMainContent c1OldDoc))
      ⟨c1NewDoc, [], 0⟩ "<p>xyzwa</p>".data = ⟨c1NewDoc, [], 0⟩ :=
  c1_amended.1 (oldElemList (extractMainContent c1OldDoc))
    ⟨c1NewDoc, [], 0⟩ "<p>xyzwa</p>".data 0 (2 / 13)
    (by decide) (by decide) (by decide)

/-- Old/new documents for claim C2: both new paragraphs are identical to the
single old paragraph, so both score `1.0` against old element `0`. -/
def c2OldDoc : List Char := "<main><p>hello world</p></main>".data

def c2NewDoc : List Char :=
  "<main><p>hello world</p><p>hello world</p></main>".data

/-- Claim C2, counterexample: when a pair is classified unchanged
(ratio `1.0 ≥ τ_max`), the old element is not claimed, so the same old
element is the selected best match of both new elements — old index `0`
participates in two Matches. -/
theorem c2_counterexample :
    selectionsOfRun c2OldDoc c2NewDoc = [some 0, some 0] ∧
    ¬ ((selectionsOfRun c2OldDoc c2NewDoc).filterMap id).Nodup := by
  refine ⟨by decide, by decide⟩

/-- Claim C2 (amended): exclusivity holds for the claimed matches: an old
element is claimed (added to the used set, which happens exactly for pairs
classified modified) at most once in any run — the used list stays
duplicate-free.  Selections that are classified unchanged (ratio at or above
`τ_max`) or unrelated (at or below `τ_min`) do not claim the old element and
may therefore repeat. -/
theorem c2_amended (oldList : List (List Char × List Char))
    (elems : List (List Char)) (st : HLState) (h : st.used.Nodup) :
    ((elems.foldl (stepFn oldList) st).used).Nodup :=
  foldl_preserves (stepFn oldList) (fun s => s.used.Nodup) elems
    (fun s b _ hs => stepFn_used_nodup oldList s b hs) st h

/-- Concrete instantiation of the amended claim C2 on the duplicate-pair
documents. -/
theorem c2_amended_witness :
    (((findallElements (extractMainContent c2NewDoc)).foldl
      (stepFn (oldElemList (extractMainContent c2OldDoc)))
      ⟨c2NewDoc, [], 0⟩).used).Nodup :=
  c2_amended (oldElemList (extractMainContent c2OldDoc))
    (findallElements (extractMainContent c2NewDoc))
    ⟨c2NewDoc, [], 0⟩ (by decide)

/-- New document for claim C3. -/
def c3NewDoc : List Char := "<main><p>hi</p></main>".data

/-- Claim C3, counterexample: with no old document available the function
returns the new document verbatim with zero changes — the extracted element
is left unannotated, not wrapped in an added-marker span. -/
theorem c3_counterexample :
    highlightChangedElements none c3NewDoc = (c3NewDoc, 0) ∧
    findallElements (extractMainContent c3NewDoc) = ["<p>hi</p>".data] ∧
    containsSub "preview-element-added".data
      (highlightChangedElements none c3NewDoc).1 = false := by
  refine ⟨by decide, by decide, by decide⟩

/-- Scenario-B documents for the amended claim C3: the old document exists
but contains no element with non-empty plain text. -/
def c3OldDocB : List Char := "<main><p>  </p></main>".data

def c3NewDocB : List Char := "<main><p>one</p><p>two</p></main>".data

def c3ExpectedB : List Char :=
  ("<main><p><mark class=\"preview-element-added\">one</mark></p>" ++
   "<p><mark class=\"preview-element-added\">two</mark></p></main>").data

/-- Claim C3 (amended): when no old document is available (or it is empty),
the new document is returned unannotated with zero changes; only when an old
document is present but yields no element with non-empty plain text is every
new element classified added and wrapped whole in an added-marker span. -/
theorem c3_amended :
    (∀ d : List Char, highlightChangedElements none d = (d, 0)) ∧
    highlightChangedElements (some c3OldDocB) c3NewDocB = (c3ExpectedB, 2) := by
  constructor
  · intro d; rfl
  · decide

/-- TOC document and changed-file list for claim C4. -/
def c4Doc : List Char :=
  "<nav><a href=\"./01-intro.html\" class=\"nav-link\">Intro</a></nav>".data

def c4Files : List (List Char) := ["01-intro.qmd".data]

/-- Claim C4, counterexample: applying the TOC annotator twice is not the
same as applying it once — the substitution does not check whether the
highlight class token is already present. -/
theorem c4_counterexample :
    highlightTocEntries (highlightTocEntries c4Doc c4Files) c4Files ≠
      highlightTocEntries c4Doc c4Files := by decide

def c4Once : List Char :=
  ("<nav><a href=\"./01-intro.html\" class=\"nav-link preview-toc-changed\">" ++
   "Intro</a></nav>").data

def c4Twice : List Char :=
  ("<nav><a href=\"./01-intro.html\" class=\"nav-link preview-toc-changed" ++
   " preview-toc-changed\">Intro</a></nav>").data

/-- Claim C4 (amended): the TOC annotator is not idempotent: a link that
already carries the highlight class token still matches the substitution
pattern, so a second application appends the token a second time; only the
caller's write-guard (which compares the whole document) limits rewriting,
and it does not prevent this duplication. -/
theorem c4_amended :
    highlightTocEntries c4Doc c4Files = c4Once ∧
    highlightTocEntries c4Once c4Files = c4Twice ∧
    containsSub " preview-toc-changed preview-toc-changed".data c4Once = false ∧
    containsSub " preview-toc-changed preview-toc-changed".data c4Twice = true := by
  refine ⟨by decide, by decide, by decide, by decide⟩

/-- Documents for claim C5: the first new element's plain text contains (via
entity unescaping) the verbatim markup of the second new element, so its
annotation introduces a copy of that literal ahead of the real second
element. -/
def c5OldDoc : List Char := "<main><p>q</p></main>".data

def c5NewDoc : List Char :=
  "<main><p>&lt;p&gt;xyz&lt;/p&gt; and more</p><p>xyz</p></main>".data

/-- Claim C5, counterexample: the code substitutes each annotation for the
first occurrence of the element's literal markup in the current working
string, including occurrences inside previously substituted annotations; on
these documents the second element's substitution lands inside the first
element's annotation, diverging from the specification's
first-remaining-occurrence semantics and leaving the real second element
unannotated. -/
theorem c5_counterexample :
    highlightChangedElements (some c5OldDoc) c5NewDoc ≠
      specHighlightChangedElements (some c5OldDoc) c5NewDoc ∧
    containsSub "<mark class=\"preview-element-added\"><p><mark".data
      (highlightChangedElements (some c5OldDoc) c5NewDoc).1 = true := by
  refine ⟨by decide, by decide⟩

theorem replaceFirst_at (lit repl s : List Char) (p : Nat)
    (h : findIdx? lit s = some p) :
    replaceFirst lit repl s = s.take p ++ repl ++ s.drop (p + lit.length) := by
  unfold replaceFirst
  rw [h]

/-- Claim C5 (amended): each substitution replaces the first occurrence of
the element's literal markup in the current working string (a single
replacement per element).  Provided no earlier annotation output contains
the literal — so that the first occurrence is the element's own — identical
duplicate elements are replaced exactly once each, in encounter order, and
all text outside the two replaced occurrences is unchanged.  (The
counterexample shows the proviso is necessary.) -/
theorem c5_amended (pre mid suf lit a1 a2 : List Char)
    (h1 : findIdx? lit (pre ++ lit ++ mid ++ lit ++ suf) = some pre.length)
    (h2 : findIdx? lit (pre ++ a1 ++ mid ++ lit ++ suf) =
      some (pre.length + a1.length + mid.length)) :
    replaceFirst lit a2 (replaceFirst lit a1 (pre ++ lit ++ mid ++ lit ++ suf)) =
      pre ++ a1 ++ mid ++ a2 ++ suf := by
  have e1 : replaceFirst lit a1 (pre ++ lit ++ mid ++ lit ++ suf) =
      pre ++ a1 ++ mid ++ lit ++ suf := by
    rw [replaceFirst_at _ _ _ _ h1]
    have ht : (pre ++ lit ++ mid ++ lit ++ suf).take pre.length = pre := by
      rw [List.append_assoc pre, List.append_assoc pre, List.append_assoc pre]
      exact List.take_left pre _
    have hd : (pre ++ lit ++ mid ++ lit ++ suf).drop (pre.length + lit.length) =
        mid ++ lit ++ suf := by
      have : pre ++ lit ++ mid ++ lit ++ suf =
          (pre ++ lit) ++ (mid ++ (lit ++ suf)) := by
        simp [List.append_assoc]
      rw [this, List.drop_left' (by simp), List.append_assoc]
    rw [ht, hd]
    simp [List.append_assoc]
  rw [e1, replaceFirst_at _ _ _ _ h2]
  have ht : (pre ++ a1 ++ mid ++ lit ++ suf).take
      (pre.length + a1.length + mid.length) = pre ++ a1 ++ mid := by
    have : pre ++ a1 ++ mid ++ lit ++ suf =
        (pre ++ a1 ++ mid) ++ (lit ++ suf) := by
      simp [List.append_assoc]
    rw [this, List.take_left' (by simp only [List.length_append]; try omega)]
  have hd : (pre ++ a1 ++ mid ++ lit ++ suf).drop
      (pre.length + a1.length + mid.length + lit.length) = suf := by
    have : pre ++ a1 ++ mid ++ lit ++ suf =
        ((pre ++ a1 ++ mid) ++ lit) ++ suf := by
      simp [List.append_assoc]
    rw [this, List.drop_left' (by simp only [List.length_append]; try omega)]
  rw [ht, hd]

/-- Concrete instantiation of the amended claim C5: two duplicate literals,
each replaced once in encounter order. -/
theorem c5_amended_witness :
    replaceFirst "XY".data "22".data
        (replaceFirst "XY".data "11".data "abXYcXYd".data) =
      "ab11c22d".data := by
  have := c5_amended "ab".data "c".data "d".data "XY".data "11".data "22".data
    (by decide) (by decide)
  simpa using this

/-- Claim C8, counterexample: the notice percentage is computed with `int()`
(truncation), not rounding: at similarity `1/3` (well below the `0.95`
insertion threshold) the notice states `66` while
`round((1 - 1/3) * 100) = 67`. -/
theorem c8_counterexample :
    changePct (1 / 3) ≠ round ((1 - (1 / 3 : ℚ)) * 100) ∧
    changePct (1 / 3) = 66 ∧ round ((1 - (1 / 3 : ℚ)) * 100) = 67 ∧
    summarySkipped (1 / 3) = false ∧ (0 : ℚ) ≤ 1 / 3 ∧ (1 / 3 : ℚ) ≤ 1 := by
  have h1 : changePct (1 / 3) = 66 := by
    unfold changePct
    rw [Int.floor_eq_iff]
    constructor <;> norm_num
  have h2 : round ((1 - (1 / 3 : ℚ)) * 100) = 67 := by
    rw [round_eq, Int.floor_eq_iff]
    constructor <;> norm_num
  exact ⟨by rw [h1, h2]; decide, h1, h2, by decide, by norm_num, by norm_num⟩

/-- Claim C8 (amended): the percentage in the notice is the truncation
`int((1 - s) * 100)`; it agrees with rounding to the nearest integer exactly
when the fractional part of `(1 - s) * 100` is below one half, and is one
less than the rounded value otherwise. -/
theorem c8_amended (s : ℚ) (h0 : 0 ≤ s) (h1 : s ≤ 1) :
    changePct s = round ((1 - s) * 100) ↔
      Int.fract ((1 - s) * 100) < 1 / 2 := by
  set y : ℚ := (1 - s) * 100 with hy
  have hsplit : round y = ⌊y⌋ + ⌊Int.fract y + 1 / 2⌋ := by
    rw [round_eq]
    have : y + 1 / 2 = (⌊y⌋ : ℚ) + (Int.fract y + 1 / 2) := by
      rw [← add_assoc, Int.floor_add_fract]
    rw [this, Int.floor_int_add]
  unfold changePct
  rw [← hy, hsplit]
  constructor
  · intro h
    have hz : ⌊Int.fract y + 1 / 2⌋ = 0 := by omega
    have := (Set.mem_Ico.mp (Int.floor_eq_zero_iff.mp hz)).2
    linarith
  · intro h
    have hz : ⌊Int.fract y + 1 / 2⌋ = 0 := by
      rw [Int.floor_eq_zero_iff, Set.mem_Ico]
      have hn := Int.fract_nonneg y
      constructor <;> linarith
    omega

/-- Concrete instantiation of the amended claim C8: at similarity `1/4` the
fractional part is `0 < 1/2` and truncation agrees with rounding. -/
theorem c8_amended_witness :
    changePct (1 / 4) = round ((1 - (1 / 4 : ℚ)) * 100) :=
  (c8_amended (1 / 4) (by norm_num) (by norm_num)).mpr (by
    rw [show (1 - (1 / 4 : ℚ)) * 100 = (75 : ℤ) by norm_num, Int.fract_intCast]
    norm_num)

/-- Claim C9: when the open/inner/close split pattern fails on an element,
the loop body leaves the working document and the change count untouched
(the element is preserved verbatim), and the fold simply continues with the
remaining elements; the embedding is total, so no exception is possible. -/
theorem c9_split_failure (oldList : List (List Char × List Char))
    (st : HLState) (e : List Char) (h : tagMatch e = none) :
    (stepFn oldList st e).doc = st.doc ∧
    (stepFn oldList st e).changes = st.changes ∧
    ∀ rest : List (List Char),
      (e :: rest).foldl (stepFn oldList) st =
        rest.foldl (stepFn oldList) (stepFn oldList st e) := by
  refine ⟨?_, ?_, fun rest => rfl⟩ <;>
  · unfold stepFn
    by_cases hempty : extractText e = []
    · rw [if_pos hempty]
    · rw [if_neg hempty]
      rcases hbm : bestMatch oldList st.used (extractText e) with ⟨b1, b2⟩
      cases b1 with
      | none => simp [hbm, h]
      | some idx =>
        simp only [hbm]
        by_cases hcond :
            SIMILARITY_THRESHOLD_MIN < b2 ∧ b2 < SIMILARITY_THRESHOLD_MAX
        · rw [if_pos hcond]
          simp [h]
        · rw [if_neg hcond]

/-- Concrete instantiation of claim C9: a malformed element (here: one with
no tag structure at all) is skipped and the document survives verbatim. -/
theorem c9_split_failure_witness :
    tagMatch "broken element".data = none ∧
    (stepFn [] ⟨"a document".data, [], 0⟩ "broken element".data).doc =
      "a document".data :=
  ⟨by decide,
   (c9_split_failure [] ⟨"a document".data, [], 0⟩ "broken element".data
     (by decide)).1⟩

/-!
Structure of the matching blocks: the blocks produced by the recursion are
ordered (each block lies strictly after the previous one in both sequences)
and bounded by their rectangle.  These facts drive the opcode-coverage
argument below.
-/

/-- Ordering between consecutive matching blocks. -/
def blockR (m1 m2 : FLMatch) : Prop :=
  m1.i + m1.size ≤ m2.i ∧ m1.j + m1.size ≤ m2.j

theorem matchingBlocksGo_spec {α : Type} [DecidableEq α] (a b : List α)
    (b2j : List (α × List Nat)) (bjunk : α → Bool) :
    ∀ (fuel alo ahi blo bhi : Nat),
      (∀ m ∈ matchingBlocksGo a b b2j bjunk fuel alo ahi blo bhi,
        alo ≤ m.i ∧ m.i + m.size ≤ ahi ∧ blo ≤ m.j ∧ m.j + m.size ≤ bhi) ∧
      List.Chain' blockR (matchingBlocksGo a b b2j bjunk fuel alo ahi blo bhi) := by
  intro fuel
  induction fuel with
  | zero =>
    intro alo ahi blo bhi
    rw [matchingBlocksGo]
    refine ⟨fun m hm => absurd hm (List.not_mem_nil m), List.chain'_nil⟩
  | succ fuel ih =>
    intro alo ahi blo bhi
    rw [matchingBlocksGo]
    rcases hflm : findLongestMatch a b b2j bjunk alo ahi blo bhi with ⟨mi, mj, msz⟩
    dsimp only
    by_cases hg : msz ≠ 0 ∧ alo ≤ mi ∧ mi + msz ≤ ahi ∧ blo ≤ mj ∧ mj + msz ≤ bhi
    · rw [if_pos hg]
      obtain ⟨ihl_bnd, ihl_chain⟩ := ih alo mi blo mj
      obtain ⟨ihr_bnd, ihr_chain⟩ := ih (mi + msz) ahi (mj + msz) bhi
      constructor
      · intro m hm
        simp only [List.append_assoc, List.mem_append, List.mem_singleton] at hm
        rcases hm with hm | hm | hm
        · have := ihl_bnd m hm
          obtain ⟨_, h2, _, _, _⟩ := hg
          exact ⟨this.1, by omega, this.2.2.1, by omega⟩
        · subst hm
          exact ⟨hg.2.1, hg.2.2.1, hg.2.2.2.1, hg.2.2.2.2⟩
        · have := ihr_bnd m hm
          exact ⟨by omega, this.2.1, by omega, this.2.2.2⟩
      · rw [List.append_assoc]
        apply ihl_chain.append
        · apply List.Chain'.cons'
          · exact ihr_chain
          · intro y hy
            have hmem : y ∈ matchingBlocksGo a b b2j bjunk fuel
                (mi + msz) ahi (mj + msz) bhi := List.mem_of_mem_head? hy
            have := ihr_bnd y hmem
            exact ⟨this.1, this.2.2.1⟩
        · intro x hx y hy
          have hxm : x ∈ matchingBlocksGo a b b2j bjunk fuel alo mi blo mj :=
            List.mem_of_mem_getLast? hx
          have hxb := ihl_bnd x hxm
          have hym : FLMatch.mk mi mj msz = y := by
            simpa using hy
          subst hym
          exact ⟨hxb.2.1, hxb.2.2.2⟩
    · rw [if_neg hg]
      refine ⟨fun m hm => absurd hm (List.not_mem_nil m), List.chain'_nil⟩

/-- The merge step of `collapseBlocks`. -/
def collapseStep (st : List FLMatch × FLMatch) (m2 : FLMatch) :
    List FLMatch × FLMatch :=
  if st.2.i + st.2.size = m2.i ∧ st.2.j + st.2.size = m2.j then
    (st.1, ⟨st.2.i, st.2.j, st.2.size + m2.size⟩)
  else
    ((if st.2.size ≠ 0 then st.1 ++ [st.2] else st.1), m2)

theorem collapseBlocks_eq (la lb : Nat) (blocks : List FLMatch) :
    collapseBlocks la lb blocks =
      (let st := blocks.foldl collapseStep ([], ⟨0, 0, 0⟩)
       (if st.2.size ≠ 0 then st.1 ++ [st.2] else st.1) ++ [⟨la, lb, 0⟩]) := by
  unfold collapseBlocks collapseStep
  rfl

theorem collapse_go_spec (la lb : Nat) :
    ∀ (blocks : List FLMatch) (acc : List FLMatch) (cur : FLMatch),
      List.Chain' blockR (acc ++ [cur]) →
      List.Chain' blockR (cur :: blocks) →
      (∀ m ∈ acc ++ [cur], m.i + m.size ≤ la ∧ m.j + m.size ≤ lb) →
      (∀ m ∈ blocks, m.i + m.size ≤ la ∧ m.j + m.size ≤ lb) →
      List.Chain' blockR ((blocks.foldl collapseStep (acc, cur)).1 ++
        [(blocks.foldl collapseStep (acc, cur)).2]) ∧
      (∀ m ∈ (blocks.foldl collapseStep (acc, cur)).1 ++
        [(blocks.foldl collapseStep (acc, cur)).2],
        m.i + m.size ≤ la ∧ m.j + m.size ≤ lb) := by
  intro blocks
  induction blocks with
  | nil =>
    intro acc cur h1 h2 h3 h4
    exact ⟨h1, h3⟩
  | cons m2 rest ih =>
    intro acc cur h1 h2 h3 h4
    rw [List.foldl_cons]
    have hcurm2 : blockR cur m2 := (List.chain'_cons.mp h2).1
    have hm2rest : List.Chain' blockR (m2 :: rest) := (List.chain'_cons.mp h2).2
    have hacc_chain : List.Chain' blockR acc := (List.chain'_append.mp h1).1
    have hacc_last : ∀ x ∈ acc.getLast?, blockR x cur := by
      intro x hx
      have := (List.chain'_append.mp h1).2.2 x hx cur (by simp)
      exact this
    have hm2bnd : m2.i + m2.size ≤ la ∧ m2.j + m2.size ≤ lb :=
      h4 m2 (List.mem_cons_self m2 rest)
    unfold collapseStep
    by_cases hmg : cur.i + cur.size = m2.i ∧ cur.j + cur.size = m2.j
    · rw [if_pos hmg]
      apply ih
      · rw [List.chain'_append]
        refine ⟨hacc_chain, List.chain'_singleton _, ?_⟩
        intro x hx y hy
        simp only [List.head?_cons, Option.mem_def, Option.some.injEq] at hy
        subst hy
        have := hacc_last x hx
        exact ⟨this.1, this.2⟩
      · apply List.Chain'.cons'
        · exact (List.chain'_cons'.mp hm2rest).2
        · intro y hy
          have hr := (List.chain'_cons'.mp hm2rest).1 y hy
          refine ⟨?_, ?_⟩
          · have : cur.i + (cur.size + m2.size) = m2.i + m2.size := by omega
            simpa [this] using hr.1
          · have : cur.j + (cur.size + m2.size) = m2.j + m2.size := by omega
            simpa [this] using hr.2
      · intro m hm
        rcases List.mem_append.mp hm with hm | hm
        · exact h3 m (List.mem_append.mpr (Or.inl hm))
        · simp only [List.mem_singleton] at hm
          subst hm
          simp only []
          constructor
          · have : cur.i + (cur.size + m2.size) = m2.i + m2.size := by omega
            omega
          · have : cur.j + (cur.size + m2.size) = m2.j + m2.size := by omega
            omega
      · intro m hm
        exact h4 m (List.mem_cons_of_mem m2 hm)
    · rw [if_neg hmg]
      by_cases hsz : cur.size ≠ 0
      · rw [if_pos hsz]
        apply ih
        · rw [List.chain'_append]
          refine ⟨h1, List.chain'_singleton _, ?_⟩
          intro x hx y hy
          simp only [List.head?_cons, Option.mem_def, Option.some.injEq] at hy
          subst hy
          rw [List.getLast?_concat] at hx
          simp only [Option.mem_def, Option.some.injEq] at hx
          subst hx
          exact hcurm2
        · exact hm2rest
        · intro m hm
          rcases List.mem_append.mp hm with hm | hm
          · exact h3 m hm
          · simp only [List.mem_singleton] at hm
            subst hm
            exact hm2bnd
        · intro m hm
          exact h4 m (List.mem_cons_of_mem m2 hm)
      · rw [if_neg hsz]
        push_neg at hsz
        apply ih
        · rw [List.chain'_append]
          refine ⟨hacc_chain, List.chain'_singleton _, ?_⟩
          intro x hx y hy
          simp only [List.head?_cons, Option.mem_def, Option.some.injEq] at hy
          subst hy
          have hxc := hacc_last x hx
          refine ⟨?_, ?_⟩
          · have ha := hxc.1
            have hb := hcurm2.1
            omega
          · have ha := hxc.2
            have hb := hcurm2.2
            omega
        · exact hm2rest
        · intro m hm
          rcases List.mem_append.mp hm with hm | hm
          · exact h3 m (List.mem_append.mpr (Or.inl hm))
          · simp only [List.mem_singleton] at hm
            subst hm
            exact hm2bnd
        · intro m hm
          exact h4 m (List.mem_cons_of_mem m2 hm)

/-- The collapsed block list of `get_matching_blocks` is chain-ordered and
ends with the sentinel `(la, lb, 0)`. -/
theorem collapseBlocks_spec (la lb : Nat) (blocks : List FLMatch)
    (hchain : List.Chain' blockR blocks)
    (hbnd : ∀ m ∈ blocks, m.i + m.size ≤ la ∧ m.j + m.size ≤ lb) :
    ∃ pre, collapseBlocks la lb blocks = pre ++ [⟨la, lb, 0⟩] ∧
      List.Chain' blockR (pre ++ [⟨la, lb, 0⟩]) := by
  have h0 : List.Chain' blockR (([] : List FLMatch) ++ [⟨0, 0, 0⟩]) := by
    simp
  have h2 : List.Chain' blockR ((⟨0, 0, 0⟩ : FLMatch) :: blocks) := by
    apply List.Chain'.cons'
    · exact hchain
    · intro y hy
      exact ⟨Nat.zero_le _, Nat.zero_le _⟩
  have h3 : ∀ m ∈ ([] : List FLMatch) ++ [(⟨0, 0, 0⟩ : FLMatch)],
      m.i + m.size ≤ la ∧ m.j + m.size ≤ lb := by
    intro m hm
    simp only [List.nil_append, List.mem_singleton] at hm
    subst hm
    exact ⟨Nat.zero_le _, Nat.zero_le _⟩
  obtain ⟨hch, hbd⟩ := collapse_go_spec la lb blocks [] ⟨0, 0, 0⟩ h0 h2 h3 hbnd
  rw [collapseBlocks_eq]
  set st := blocks.foldl collapseStep ([], ⟨0, 0, 0⟩) with hst
  by_cases hsz : st.2.size ≠ 0
  · refine ⟨st.1 ++ [st.2], by dsimp only; rw [if_pos hsz], ?_⟩
    rw [List.chain'_append]
    refine ⟨hch, List.chain'_singleton _, ?_⟩
    intro x hx y hy
    simp only [List.head?_cons, Option.mem_def, Option.some.injEq] at hy
    subst hy
    rw [List.getLast?_concat] at hx
    simp only [Option.mem_def, Option.some.injEq] at hx
    subst hx
    have := hbd st.2 (List.mem_append.mpr (Or.inr (List.mem_singleton.mpr rfl)))
    exact ⟨this.1, this.2⟩
  · refine ⟨st.1, by dsimp only; rw [if_neg hsz], ?_⟩
    push_neg at hsz
    rw [List.chain'_append]
    refine ⟨(List.chain'_append.mp hch).1, List.chain'_singleton _, ?_⟩
    intro x hx y hy
    simp only [List.head?_cons, Option.mem_def, Option.some.injEq] at hy
    subst hy
    have hxmem : x ∈ st.1 := List.mem_of_mem_getLast? hx
    have hxb := hbd x (List.mem_append.mpr (Or.inl hxmem))
    exact ⟨hxb.1, hxb.2⟩

/-- Direct recursion equivalent of the `get_opcodes` fold (proof
infrastructure: `opcodesOfBlocks` remains the faithful embedding). -/
def opcodesGo : Nat → Nat → List FLMatch → List Opcode
  | _, _, [] => []
  | i, j, m :: rest =>
    (if i < m.i ∧ j < m.j then [⟨.replace, i, m.i, j, m.j⟩]
     else if i < m.i then [⟨.delete, i, m.i, j, m.j⟩]
     else if j < m.j then [⟨.insert, i, m.i, j, m.j⟩]
     else []) ++
    (if m.size ≠ 0 then [⟨.equal, m.i, m.i + m.size, m.j, m.j + m.size⟩]
     else []) ++
    opcodesGo (m.i + m.size) (m.j + m.size) rest

theorem opcodesOfBlocks_foldl (blocks : List FLMatch) :
    ∀ (i j : Nat) (acc : List Opcode),
      (blocks.foldl (fun (st : Nat × Nat × List Opcode) m =>
        let i := st.1
        let j := st.2.1
        let acc := st.2.2
        let acc :=
          if i < m.i ∧ j < m.j then acc ++ [⟨.replace, i, m.i, j, m.j⟩]
          else if i < m.i then acc ++ [⟨.delete, i, m.i, j, m.j⟩]
          else if j < m.j then acc ++ [⟨.insert, i, m.i, j, m.j⟩]
          else acc
        let acc :=
          if m.size ≠ 0 then
            acc ++ [⟨.equal, m.i, m.i + m.size, m.j, m.j + m.size⟩]
          else acc
        (m.i + m.size, m.j + m.size, acc)) (i, j, acc)).2.2 =
      acc ++ opcodesGo i j blocks := by
  induction blocks with
  | nil => intro i j acc; simp [opcodesGo]
  | cons m rest ih =>
    intro i j acc
    rw [List.foldl_cons, opcodesGo]
    dsimp only
    rw [ih]
    by_cases hA : i < m.i <;> by_cases hB : j < m.j <;>
      by_cases h2 : m.size ≠ 0 <;>
      simp [hA, hB, h2, List.append_assoc]

theorem opcodesOfBlocks_eq_go (blocks : List FLMatch) :
    opcodesOfBlocks blocks = opcodesGo 0 0 blocks := by
  unfold opcodesOfBlocks
  exact opcodesOfBlocks_foldl blocks 0 0 []

theorem sliceL_append_sliceL {β : Type} (l : List β) (x y z : Nat)
    (hxy : x ≤ y) (hyz : y ≤ z) :
    sliceL l x y ++ sliceL l y z = sliceL l x z := by
  unfold sliceL
  have hz : z - x = (y - x) + (z - y) := by omega
  rw [hz, List.take_add, List.drop_drop]
  congr 3
  omega

theorem sliceL_self {β : Type} (l : List β) (x : Nat) : sliceL l x x = [] := by
  unfold sliceL
  simp

/-- End position (in the second sequence) after consuming a block list. -/
def lastJ : Nat → List FLMatch → Nat
  | j, [] => j
  | _, m :: rest => lastJ (m.j + m.size) rest

theorem lastJ_concat (j : Nat) (pre : List FLMatch) (m : FLMatch) :
    lastJ j (pre ++ [m]) = m.j + m.size := by
  induction pre generalizing j with
  | nil => rfl
  | cons x rest ih => exact ih (x.j + x.size)

/-- The j-extents of the opcodes tile the second sequence: concatenating the
new-side token slices of all opcodes (deletes contribute nothing) yields the
tokens from `j` to the final block end. -/
theorem opcodes_tile (W : List (List Char)) :
    ∀ (blocks : List FLMatch) (i j : Nat),
      List.Chain' blockR (⟨i, j, 0⟩ :: blocks) →
      ((opcodesGo i j blocks).flatMap (fun op =>
        match op.tag with
        | .delete => ([] : List (List Char))
        | _ => sliceL W op.j1 op.j2)) = sliceL W j (lastJ j blocks) ∧
      j ≤ lastJ j blocks := by
  intro blocks
  induction blocks with
  | nil =>
    intro i j hch
    rw [opcodesGo, lastJ]
    simp [sliceL_self]
  | cons m rest ih =>
    intro i j hch
    have hhead : blockR ⟨i, j, 0⟩ m := (List.chain'_cons.mp hch).1
    have hij : i ≤ m.i ∧ j ≤ m.j := by
      have h1 : i + 0 ≤ m.i := hhead.1
      have h2 : j + 0 ≤ m.j := hhead.2
      constructor <;> omega
    have hrest : List.Chain' blockR (m :: rest) := (List.chain'_cons.mp hch).2
    have hrec : List.Chain' blockR
        ((⟨m.i + m.size, m.j + m.size, 0⟩ : FLMatch) :: rest) := by
      apply List.Chain'.cons'
      · exact (List.chain'_cons'.mp hrest).2
      · intro y hy
        have hr := (List.chain'_cons'.mp hrest).1 y hy
        have hr1 : m.i + m.size ≤ y.i := hr.1
        have hr2 : m.j + m.size ≤ y.j := hr.2
        refine ⟨?_, ?_⟩
        · show m.i + m.size + 0 ≤ y.i
          omega
        · show m.j + m.size + 0 ≤ y.j
          omega
    obtain ⟨ihslice, ihle⟩ := ih (m.i + m.size) (m.j + m.size) hrec
    rw [opcodesGo, lastJ]
    constructor
    · rw [List.flatMap_append, List.flatMap_append, ihslice]
      have hgap : ((if i < m.i ∧ j < m.j then
            [(⟨.replace, i, m.i, j, m.j⟩ : Opcode)]
          else if i < m.i then [⟨.delete, i, m.i, j, m.j⟩]
          else if j < m.j then [⟨.insert, i, m.i, j, m.j⟩]
          else []).flatMap (fun op =>
            match op.tag with
            | .delete => ([] : List (List Char))
            | _ => sliceL W op.j1 op.j2)) = sliceL W j m.j := by
        by_cases hA : i < m.i <;> by_cases hB : j < m.j
        · simp [hA, hB]
        · have hj : j = m.j := by omega
          simp [hA, hB, hj, sliceL_self]
        · simp [hA, hB]
        · have hj : j = m.j := by omega
          simp [hA, hB, hj, sliceL_self]
      have heq : ((if m.size ≠ 0 then
            [(⟨.equal, m.i, m.i + m.size, m.j, m.j + m.size⟩ : Opcode)]
          else []).flatMap (fun op =>
            match op.tag with
            | .delete => ([] : List (List Char))
            | _ => sliceL W op.j1 op.j2)) = sliceL W m.j (m.j + m.size) := by
        by_cases h2 : m.size ≠ 0
        · simp [h2]
        · push_neg at h2
          simp [h2, sliceL_self]
      rw [hgap, heq,
        sliceL_append_sliceL W j m.j (m.j + m.size) hij.2 (Nat.le_add_right _ _)]
      exact sliceL_append_sliceL W j (m.j + m.size) (lastJ (m.j + m.size) rest)
        (by omega) ihle
    · omega

/-!
Tag-stripping distributes over the rendered output: complete `<...>` tag
shapes vanish and text free of `<` passes through unchanged.
-/

/-- A complete markup tag: `<`, at least one non-`>` character, `>`. -/
def TagShape (t : List Char) : Prop :=
  ∃ mid, t = '<' :: (mid ++ ['>']) ∧ mid ≠ [] ∧ '>' ∉ mid

theorem stripTagsGo_tag (r : List Char) :
    ∀ (mid buf : List Char), '>' ∉ mid → (mid ≠ [] ∨ buf ≠ []) →
      stripTagsGo (some buf) (mid ++ '>' :: r) = stripTagsGo none r := by
  intro mid
  induction mid with
  | nil =>
    intro buf hgt hne
    have hbuf : buf ≠ [] := by
      rcases hne with h | h
      · exact absurd rfl h
      · exact h
    rw [List.nil_append, stripTagsGo]
    rw [if_pos rfl, if_neg hbuf]
  | cons c mid ih =>
    intro buf hgt hne
    have hc : c ≠ '>' := by
      intro hc
      exact hgt (hc ▸ List.mem_cons_self c mid)
    rw [List.cons_append, stripTagsGo, if_neg hc]
    exact ih (c :: buf) (fun hm => hgt (List.mem_cons_of_mem c hm))
      (Or.inr (by simp))

theorem stripTags_tag_append (t r : List Char) (ht : TagShape t) :
    stripTags (t ++ r) = stripTags r := by
  obtain ⟨mid, rfl, hne, hgt⟩ := ht
  unfold stripTags
  rw [List.cons_append, stripTagsGo, if_pos rfl]
  rw [List.append_assoc, List.singleton_append]
  exact stripTagsGo_tag r mid [] hgt (Or.inl hne)

theorem stripTags_plain_append (pl r : List Char) (h : '<' ∉ pl) :
    stripTags (pl ++ r) = pl ++ stripTags r := by
  induction pl with
  | nil => simp
  | cons c rest ih =>
    have hc : c ≠ '<' := fun hc => h (hc ▸ List.mem_cons_self c rest)
    rw [List.cons_append]
    unfold stripTags
    rw [stripTagsGo, if_neg hc]
    rw [List.cons_append]
    congr 1
    exact ih (fun hm => h (List.mem_cons_of_mem c hm))

theorem escapeHtml_no_angle (s : List Char) :
    '<' ∉ escapeHtml s ∧ '>' ∉ escapeHtml s := by
  constructor <;>
  · intro hmem
    unfold escapeHtml at hmem
    rw [List.mem_flatMap] at hmem
    obtain ⟨c, hc, hin⟩ := hmem
    by_cases h1 : c = '&'
    · simp [h1] at hin
    by_cases h2 : c = '<'
    · simp [h1, h2] at hin
    by_cases h3 : c = '>'
    · simp [h1, h2, h3] at hin
    by_cases h4 : c = '"'
    · simp [h1, h2, h3, h4] at hin
    by_cases h5 : c = '\''
    · simp [h1, h2, h3, h4, h5] at hin
    · simp [h1, h2, h3, h4, h5] at hin
      subst hin
      first
        | exact h2 rfl
        | exact h3 rfl

theorem markChanged_decomp (oldSpan newSpan : List Char) :
    ∃ o c, markChanged oldSpan newSpan = o ++ (newSpan ++ c) ∧
      TagShape o ∧ TagShape c := by
  refine ⟨"<mark class=\"preview-text-changed\" title=\"Modified from: ".data ++
    escapeHtml oldSpan ++ "\">".data, "</mark>".data, ?_, ?_, ?_⟩
  · unfold markChanged
    simp [List.append_assoc]
  · refine ⟨"mark class=\"preview-text-changed\" title=\"Modified from: ".data ++
      escapeHtml oldSpan ++ ['"'], ?_, ?_, ?_⟩
    · simp [List.append_assoc]
    · simp
    · intro hmem
      rcases List.mem_append.mp hmem with hm | hm
      · rcases List.mem_append.mp hm with hm2 | hm2
        · revert hm2; decide
        · exact (escapeHtml_no_angle oldSpan).2 hm2
      · revert hm; decide
  · exact ⟨"/mark".data, by decide, by decide, by decide⟩

theorem markInserted_decomp (newSpan : List Char) :
    ∃ o c, markInserted newSpan = o ++ (newSpan ++ c) ∧
      TagShape o ∧ TagShape c := by
  refine ⟨"<mark class=\"preview-text-added\">".data, "</mark>".data, ?_, ?_, ?_⟩
  · unfold markInserted
    simp [List.append_assoc]
  · exact ⟨"mark class=\"preview-text-added\"".data, by decide, by decide,
      by decide⟩
  · exact ⟨"/mark".data, by decide, by decide, by decide⟩

theorem sublist_flatten {β : Type} {l1 l2 : List (List β)}
    (h : List.Sublist l1 l2) : List.Sublist l1.flatten l2.flatten := by
  induction h with
  | slnil => exact List.Sublist.refl _
  | cons x _ ih =>
    rw [List.flatten_cons]
    exact ih.trans (List.sublist_append_right _ _)
  | cons₂ x _ ih =>
    rw [List.flatten_cons, List.flatten_cons]
    exact List.Sublist.append_left ih _

theorem sliceL_sublist {β : Type} (l : List β) (x y : Nat) :
    List.Sublist (sliceL l x y) l :=
  (List.take_sublist _ _).trans (List.drop_sublist _ _)

/-- The per-opcode contribution of `highlight_text_diff`'s result list. -/
def opPiece (oldWords newWords : List (List Char)) (op : Opcode) :
    List (List Char) :=
  match op.tag with
  | .equal => sliceL newWords op.j1 op.j2
  | .replace =>
    [markChanged (sliceL oldWords op.i1 op.i2).flatten
      (sliceL newWords op.j1 op.j2).flatten]
  | .insert => [markInserted (sliceL newWords op.j1 op.j2).flatten]
  | .delete => []

theorem foldl_append_flatMap {β γ : Type} (g : β → List γ) :
    ∀ (l : List β) (acc : List γ),
      l.foldl (fun a x => a ++ g x) acc = acc ++ l.flatMap g := by
  intro l
  induction l with
  | nil => intro acc; simp
  | cons x rest ih =>
    intro acc
    rw [List.foldl_cons, ih, List.flatMap_cons, List.append_assoc]

theorem highlightTextDiff_eq (oldText newText : List Char) :
    highlightTextDiff oldText newText =
      ((getOpcodes (tokenize oldText) (tokenize newText)).flatMap
        (opPiece (tokenize oldText) (tokenize newText))).flatten := by
  unfold highlightTextDiff
  dsimp only
  have hbody : (fun (acc : List (List Char)) (op : Opcode) =>
      match op.tag with
      | DiffTag.equal => acc ++ sliceL (tokenize newText) op.j1 op.j2
      | DiffTag.replace =>
        acc ++ [markChanged (sliceL (tokenize oldText) op.i1 op.i2).flatten
          (sliceL (tokenize newText) op.j1 op.j2).flatten]
      | DiffTag.insert =>
        acc ++ [markInserted (sliceL (tokenize newText) op.j1 op.j2).flatten]
      | DiffTag.delete => acc) =
      (fun acc op => acc ++ opPiece (tokenize oldText) (tokenize newText) op) := by
    funext acc op
    rcases op with ⟨tag, i1, i2, j1, j2⟩
    cases tag <;> simp [opPiece]
  rw [hbody, foldl_append_flatMap]
  rfl

/-- Tag stripping on the rendered opcode pieces leaves exactly the new-side
token content: marker tags vanish and the plain new tokens remain. -/
theorem strip_render (oldWords newWords : List (List Char))
    (hW : ∀ tok ∈ newWords, '<' ∉ tok) :
    ∀ ops : List Opcode,
      stripTags ((ops.flatMap (opPiece oldWords newWords)).flatten) =
        (ops.flatMap (fun op =>
          match op.tag with
          | DiffTag.delete => ([] : List (List Char))
          | _ => sliceL newWords op.j1 op.j2)).flatten := by
  have hplain : ∀ x y : Nat, '<' ∉ (sliceL newWords x y).flatten := by
    intro x y hc
    rw [List.mem_flatten] at hc
    obtain ⟨tok, htok, hctok⟩ := hc
    exact hW tok ((sliceL_sublist newWords x y).subset htok) hctok
  intro ops
  induction ops with
  | nil => rfl
  | cons op rest ih =>
    rw [List.flatMap_cons, List.flatMap_cons, List.flatten_append,
      List.flatten_append]
    rcases op with ⟨tag, i1, i2, j1, j2⟩
    cases tag
    case equal =>
      simp only [opPiece]
      rw [stripTags_plain_append _ _ (hplain j1 j2), ih]
    case replace =>
      simp only [opPiece]
      obtain ⟨o, c, heq, hto, htc⟩ :=
        markChanged_decomp (sliceL oldWords i1 i2).flatten
          (sliceL newWords j1 j2).flatten
      rw [show [markChanged (sliceL oldWords i1 i2).flatten
          (sliceL newWords j1 j2).flatten].flatten =
        markChanged (sliceL oldWords i1 i2).flatten
          (sliceL newWords j1 j2).flatten by simp]
      rw [heq, List.append_assoc, stripTags_tag_append _ _ hto,
        List.append_assoc, stripTags_plain_append _ _ (hplain j1 j2),
        stripTags_tag_append _ _ htc, ih]
    case insert =>
      simp only [opPiece]
      obtain ⟨o, c, heq, hto, htc⟩ :=
        markInserted_decomp (sliceL newWords j1 j2).flatten
      rw [show [markInserted (sliceL newWords j1 j2).flatten].flatten =
        markInserted (sliceL newWords j1 j2).flatten by simp]
      rw [heq, List.append_assoc, stripTags_tag_append _ _ hto,
        List.append_assoc, stripTags_plain_append _ _ (hplain j1 j2),
        stripTags_tag_append _ _ htc, ih]
    case delete =>
      simp only [opPiece]
      rw [List.flatten_nil, List.nil_append, List.nil_append, ih]

theorem sliceL_full {β : Type} (l : List β) : sliceL l 0 l.length = l := by
  unfold sliceL
  simp

/-- The visible content of the token diff is exactly the new text: taking
the opcode list of `SequenceMatcher` over the token sequences, the new-side
slices of its opcodes tile the entire new token sequence. -/
theorem getOpcodes_visible (oldWords newWords : List (List Char)) :
    ((getOpcodes oldWords newWords).flatMap (fun op =>
      match op.tag with
      | DiffTag.delete => ([] : List (List Char))
      | _ => sliceL newWords op.j1 op.j2)).flatten = newWords.flatten := by
  obtain ⟨hbnd, hchain⟩ := matchingBlocksGo_spec oldWords newWords
    (chainB newWords) (fun _ => false)
    ((oldWords.length - 0) + (newWords.length - 0) + 1) 0 oldWords.length
    0 newWords.length
  have hbnd' : ∀ m ∈ matchingBlocksRec oldWords newWords (chainB newWords)
      (fun _ => false) 0 oldWords.length 0 newWords.length,
      m.i + m.size ≤ oldWords.length ∧ m.j + m.size ≤ newWords.length := by
    intro m hm
    have := hbnd m hm
    exact ⟨this.2.1, this.2.2.2⟩
  obtain ⟨pre, hpre, hprechain⟩ := collapseBlocks_spec oldWords.length
    newWords.length (matchingBlocksRec oldWords newWords (chainB newWords)
      (fun _ => false) 0 oldWords.length 0 newWords.length) hchain hbnd'
  unfold getOpcodes
  unfold getMatchingBlocks
  rw [hpre, opcodesOfBlocks_eq_go]
  have hheadchain : List.Chain' blockR
      ((⟨0, 0, 0⟩ : FLMatch) :: (pre ++ [⟨oldWords.length, newWords.length, 0⟩])) := by
    apply List.Chain'.cons'
    · exact hprechain
    · intro y hy
      exact ⟨Nat.zero_le _, Nat.zero_le _⟩
  obtain ⟨htile, _⟩ := opcodes_tile newWords
    (pre ++ [⟨oldWords.length, newWords.length, 0⟩]) 0 0 hheadchain
  rw [htile, lastJ_concat]
  rw [show (⟨oldWords.length, newWords.length, 0⟩ : FLMatch).j +
    (⟨oldWords.length, newWords.length, 0⟩ : FLMatch).size = newWords.length
    from rfl]
  rw [sliceL_full]

/-- Claim C7: for every pair of old and new texts (the new text containing
no raw markup opening, so that marker-tag removal is well defined), the
rendered token diff with its marker tags stripped is exactly the new text:
equal, replaced and inserted spans all emit new-side tokens in order,
deleted spans are dropped entirely (their rendered piece is empty), and old
text never appears as visible content. -/
theorem c7_visible_content (oldText newText : List Char)
    (h : '<' ∉ newText) :
    stripTags (highlightTextDiff oldText newText) = newText ∧
    (∀ (ow nw : List (List Char)) (op : Opcode), op.tag = DiffTag.delete →
      opPiece ow nw op = []) := by
  constructor
  · have hW : ∀ tok ∈ tokenize newText, '<' ∉ tok := by
      intro tok htok hc
      apply h
      rw [← tokenize_join newText, List.mem_flatten]
      exact ⟨tok, htok, hc⟩
    rw [highlightTextDiff_eq, strip_render _ _ hW, getOpcodes_visible,
      tokenize_join]
  · intro ow nw op htag
    unfold opPiece
    rw [htag]

/-- Concrete instantiation of claim C7 on the scenario-A texts: the visible
content of the rendered diff is the new sentence. -/
theorem c7_visible_content_witness :
    stripTags (highlightTextDiff "The quick fox jumps.".data
      "The quick brown fox jumps.".data) = "The quick brown fox jumps.".data :=
  (c7_visible_content "The quick fox jumps.".data
    "The quick brown fox jumps.".data (by decide)).1

/-!
Claim C10: annotated inner content is built solely from the derived plain
text, and tag stripping leaves no complete tag shape behind.
-/

theorem gtMem_of_drop_ne (rest : List Char)
    (h : rest.drop (rest.takeWhile (fun d => d ≠ '>')).length ≠ []) :
    '>' ∈ rest := by
  induction rest with
  | nil => simp at h
  | cons c r ih =>
    by_cases hc : c = '>'
    · exact hc ▸ List.mem_cons_self c r
    · rw [List.takeWhile_cons_of_pos (by simpa using hc)] at h
      simp only [List.length_cons, List.drop_succ_cons] at h
      exact List.mem_cons_of_mem c (ih h)

theorem hasTag_of_no_gt (s : List Char) (h : '>' ∉ s) :
    hasTag s = false := by
  induction s with
  | nil => rfl
  | cons c rest ih =>
    rw [hasTag]
    have hrest : '>' ∉ rest := fun hm => h (List.mem_cons_of_mem c hm)
    by_cases hc : c = '<'
    · rw [if_pos hc]
      have hdrop : rest.drop (rest.takeWhile (fun d => d ≠ '>')).length = [] := by
        by_contra hne
        exact hrest (gtMem_of_drop_ne rest hne)
      rw [if_neg (by
        intro hcon
        exact hcon.2 hdrop)]
      exact ih hrest
    · rw [if_neg hc]
      exact ih hrest

theorem hasTag_stripTagsGo :
    ∀ (n : Nat) (ost : Option (List Char)) (s : List Char),
      (∀ buf, ost = some buf → '>' ∉ buf) → s.length ≤ n →
      hasTag (stripTagsGo ost s) = false := by
  intro n
  induction n with
  | zero =>
    intro ost s hbuf hlen
    have hs : s = [] := List.length_eq_zero.mp (Nat.le_zero.mp hlen)
    subst hs
    cases ost with
    | none => rfl
    | some buf =>
      rw [stripTagsGo, hasTag]
      rw [if_pos rfl]
      have hnog : '>' ∉ buf.reverse := by
        intro hm
        exact hbuf buf rfl (List.mem_reverse.mp hm)
      have hdrop : buf.reverse.drop
          (buf.reverse.takeWhile (fun d => d ≠ '>')).length = [] := by
        by_contra hne
        exact hnog (gtMem_of_drop_ne _ hne)
      rw [if_neg (fun hcon => hcon.2 hdrop)]
      exact hasTag_of_no_gt _ hnog
  | succ n ih =>
    intro ost s hbuf hlen
    cases s with
    | nil =>
      cases ost with
      | none => rfl
      | some buf =>
        rw [stripTagsGo, hasTag]
        rw [if_pos rfl]
        have hnog : '>' ∉ buf.reverse := by
          intro hm
          exact hbuf buf rfl (List.mem_reverse.mp hm)
        have hdrop : buf.reverse.drop
            (buf.reverse.takeWhile (fun d => d ≠ '>')).length = [] := by
          by_contra hne
          exact hnog (gtMem_of_drop_ne _ hne)
        rw [if_neg (fun hcon => hcon.2 hdrop)]
        exact hasTag_of_no_gt _ hnog
    | cons c rest =>
      have hlen2 : rest.length ≤ n := by
        simp only [List.length_cons] at hlen
        omega
      cases ost with
      | none =>
        rw [stripTagsGo]
        by_cases hc : c = '<'
        · rw [if_pos hc]
          exact ih (some []) rest (by intro buf hb; cases hb; simp) hlen2
        · rw [if_neg hc]
          rw [hasTag, if_neg hc]
          exact ih none rest (by intro buf hb; cases hb) hlen2
      | some buf =>
        have hnog : '>' ∉ buf := hbuf buf rfl
        rw [stripTagsGo]
        by_cases hc : c = '>'
        · rw [if_pos hc]
          by_cases hb : buf = []
          · rw [if_pos hb]
            rw [hasTag]
            rw [if_pos rfl]
            rw [if_neg (by
              intro hcon
              have : ('>' :: stripTagsGo none rest).takeWhile
                  (fun d => d ≠ '>') = [] := by
                rw [List.takeWhile_cons_of_neg]
                simp
              exact hcon.1 this)]
            rw [hasTag, if_neg (by decide)]
            exact ih none rest (by intro b hb2; cases hb2) hlen2
          · rw [if_neg hb]
            exact ih none rest (by intro b hb2; cases hb2) hlen2
        · rw [if_neg hc]
          exact ih (some (c :: buf)) rest (by
            intro b hb2
            cases hb2
            intro hm
            rcases List.mem_cons.mp hm with hm | hm
            · exact hc hm.symm
            · exact hnog hm) hlen2

/-- Tag stripping leaves no complete `<...>` tag: every substring of the
stripped text matching the tag pattern is gone. -/
theorem stripTags_no_tag (s : List Char) : hasTag (stripTags s) = false :=
  hasTag_stripTagsGo s.length none s (by intro b hb; cases hb) le_rfl

theorem markAddedElem_decomp (t : List Char) :
    ∃ o c, markAddedElem t = o ++ (t ++ c) ∧ TagShape o ∧ TagShape c := by
  refine ⟨"<mark class=\"preview-element-added\">".data, "</mark>".data,
    ?_, ?_, ?_⟩
  · unfold markAddedElem
    simp [List.append_assoc]
  · exact ⟨"mark class=\"preview-element-added\"".data, by decide, by decide,
      by decide⟩
  · exact ⟨"/mark".data, by decide, by decide, by decide⟩

/-- Claim C10: for a modified or added element, the annotated inner content
is built solely from the element's derived plain text: (1) the plain-text
derivation removes every complete nested tag before unescaping (no tag
shape survives stripping); (2) the visible content of the modified
rendering — equal spans included — is exactly the derived plain text; (3)
the visible content of the added rendering is exactly the derived plain
text.  (The plain text is assumed free of raw `<`, which entity unescaping
could otherwise reintroduce.) -/
theorem c10_inner_from_plain_text (oldText e : List Char)
    (h : '<' ∉ extractText e) :
    hasTag (stripTags e) = false ∧
    stripTags (highlightTextDiff oldText (extractText e)) = extractText e ∧
    stripTags (markAddedElem (extractText e)) = extractText e := by
  refine ⟨stripTags_no_tag e, ?_, ?_⟩
  · have hW : ∀ tok ∈ tokenize (extractText e), '<' ∉ tok := by
      intro tok htok hc
      apply h
      rw [← tokenize_join (extractText e), List.mem_flatten]
      exact ⟨tok, htok, hc⟩
    rw [highlightTextDiff_eq, strip_render _ _ hW, getOpcodes_visible,
      tokenize_join]
  · obtain ⟨o, c, heq, hto, htc⟩ := markAddedElem_decomp (extractText e)
    have hc : stripTags c = [] := by
      have h2 := stripTags_tag_append c [] htc
      simpa using h2
    rw [heq, stripTags_tag_append _ _ hto, stripTags_plain_append _ _ h, hc,
      List.append_nil]

/-- Concrete instantiation of claim C10: an element with a nested tag and an
entity. -/
theorem c10_inner_from_plain_text_witness :
    stripTags (markAddedElem (extractText "<p><b>bold</b> &amp; more</p>".data)) =
      "bold & more".data := by
  have := (c10_inner_from_plain_text [] "<p><b>bold</b> &amp; more</p>".data
    (by decide)).2.2
  rw [this]
  decide

/-!
Claim C6 machinery: `ratio()` of a sequence against itself is `1`.  The
autojunk heuristic can remove rows from the `b2j` table, so the dynamic
programme of `find_longest_match` need not find the full diagonal; but its
running best is always a diagonal block, and the extension loops (which
compare raw elements, ignoring popularity) grow any diagonal block to the
full diagonal.
-/

section RatioSelf

variable {α : Type} [DecidableEq α]

/-- Analysis helper: the positions of `c` in `a`, offset by `s`
(ascending). -/
def posList (s : Nat) (a : List α) (c : α) : List Nat :=
  match a with
  | [] => []
  | x :: rest =>
    if x = c then s :: posList (s + 1) rest c else posList (s + 1) rest c

theorem lookup_insertB2j (acc : List (α × List Nat)) (key : α) (idx : Nat)
    (c : α) :
    lookupB2j (insertB2j acc key idx) c =
      if c = key then lookupB2j acc c ++ [idx] else lookupB2j acc c := by
  induction acc with
  | nil =>
    by_cases h : c = key
    · subst h
      simp [insertB2j, lookupB2j]
    · simp only [insertB2j, lookupB2j]
      rw [if_neg (fun hh : key = c => h hh.symm), if_neg h]
  | cons p rest ih =>
    rcases p with ⟨k, is⟩
    simp only [insertB2j]
    by_cases hk : k = key
    · subst hk
      rw [if_pos rfl]
      simp only [lookupB2j]
      by_cases hc : k = c
      · subst hc
        simp
      · simp only [if_neg hc]
        rw [if_neg (fun h : c = k => hc h.symm)]
    · rw [if_neg hk]
      simp only [lookupB2j]
      by_cases hc : k = c
      · subst hc
        simp [hk]
      · simp only [if_neg hc]
        exact ih

theorem lookup_foldl_insert (a : List α) :
    ∀ (s : Nat) (acc : List (α × List Nat)) (c : α),
      lookupB2j ((List.enumFrom s a).foldl
          (fun acc p => insertB2j acc p.2 p.1) acc) c =
        lookupB2j acc c ++ posList s a c := by
  induction a with
  | nil =>
    intro s acc c
    simp [posList]
  | cons x rest ih =>
    intro s acc c
    simp only [List.enumFrom, List.foldl_cons]
    rw [ih (s + 1), lookup_insertB2j]
    by_cases h : c = x
    · rw [if_pos h]
      simp only [posList, if_pos h.symm, List.append_assoc,
        List.singleton_append]
    · rw [if_neg h]
      simp only [posList]
      rw [if_neg (fun hh : x = c => h hh.symm)]

theorem keys_insertB2j (acc : List (α × List Nat)) (key : α) (idx : Nat) :
    (insertB2j acc key idx).map Prod.fst =
      if key ∈ acc.map Prod.fst then acc.map Prod.fst
      else acc.map Prod.fst ++ [key] := by
  induction acc with
  | nil => simp [insertB2j]
  | cons p rest ih =>
    rcases p with ⟨k, is⟩
    simp only [insertB2j, List.map_cons]
    by_cases hk : k = key
    · subst hk
      simp
    · rw [if_neg hk]
      simp only [List.map_cons, List.mem_cons]
      rw [ih]
      by_cases hm : key ∈ rest.map Prod.fst
      · rw [if_pos hm, if_pos (Or.inr hm)]
      · rw [if_neg hm, if_neg (by
          rintro (h | h)
          · exact hk h.symm
          · exact hm h)]
        simp

theorem keysNodup_foldl (a : List α) :
    ∀ (s : Nat) (acc : List (α × List Nat)),
      (acc.map Prod.fst).Nodup →
      (((List.enumFrom s a).foldl (fun acc p => insertB2j acc p.2 p.1)
        acc).map Prod.fst).Nodup := by
  induction a with
  | nil =>
    intro s acc h
    simpa using h
  | cons x rest ih =>
    intro s acc h
    simp only [List.enumFrom, List.foldl_cons]
    refine ih (s + 1) _ ?_
    rw [keys_insertB2j]
    by_cases hm : x ∈ acc.map Prod.fst
    · rw [if_pos hm]
      exact h
    · rw [if_neg hm]
      simp [List.nodup_append, h, hm]

theorem lookup_eq_nil_of_not_mem (acc : List (α × List Nat)) (c : α)
    (h : c ∉ acc.map Prod.fst) : lookupB2j acc c = [] := by
  induction acc with
  | nil => rfl
  | cons p rest ih =>
    rcases p with ⟨k, is⟩
    simp only [List.map_cons, List.mem_cons] at h
    push_neg at h
    simp only [lookupB2j, if_neg (fun hh : k = c => h.1 hh.symm)]
    exact ih h.2

theorem lookup_filter (pr : List Nat → Bool) (acc : List (α × List Nat))
    (c : α) (h : (acc.map Prod.fst).Nodup) :
    lookupB2j (acc.filter (fun p => pr p.2)) c =
      if pr (lookupB2j acc c) then lookupB2j acc c else [] := by
  induction acc with
  | nil =>
    simp only [List.filter_nil, lookupB2j]
    exact (ite_self _).symm
  | cons p rest ih =>
    rcases p with ⟨k, is⟩
    rw [List.map_cons] at h
    obtain ⟨hk, hrest⟩ := List.nodup_cons.mp h
    by_cases hc : k = c
    · subst hc
      by_cases hp : pr is
      · rw [List.filter_cons, if_pos (by simpa using hp)]
        simp [lookupB2j, hp]
      · rw [List.filter_cons, if_neg (by simpa using hp)]
        rw [show lookupB2j ((k, is) :: rest) k = is from by simp [lookupB2j]]
        rw [if_neg (by simpa using hp)]
        refine lookup_eq_nil_of_not_mem _ _ (fun hm => ?_)
        obtain ⟨q, hq1, hq2⟩ := List.mem_map.mp hm
        exact hk (List.mem_map.mpr ⟨q, List.mem_of_mem_filter hq1, hq2⟩)
    · have hlk : lookupB2j ((k, is) :: rest) c = lookupB2j rest c := by
        simp [lookupB2j, hc]
      rw [List.filter_cons]
      by_cases hp : pr is
      · rw [if_pos (by simpa using hp)]
        rw [show lookupB2j ((k, is) :: List.filter (fun p => pr p.2) rest) c
            = lookupB2j (List.filter (fun p => pr p.2) rest) c from by
          simp [lookupB2j, hc]]
        rw [hlk]
        exact ih hrest
      · rw [if_neg (by simpa using hp), hlk]
        exact ih hrest

/-- The occurrence lists of the built and possibly autojunk-filtered `b2j`
of `__chain_b`: the ascending position list of `c` in `a`, or `[]` when the
autojunk heuristic removed `c` as popular. -/
theorem lookup_chainB (a : List α) (c : α) :
    lookupB2j (chainB a) c =
      if 200 ≤ a.length ∧
          a.length / 100 + 1 < (posList 0 a c).length then []
      else posList 0 a c := by
  have henum : a.enum = List.enumFrom 0 a := rfl
  have hbase :
      lookupB2j ((a.enum).foldl (fun acc p => insertB2j acc p.2 p.1) []) c
        = posList 0 a c := by
    rw [henum, lookup_foldl_insert a 0 [] c]
    rfl
  have hnodup :
      (((a.enum).foldl (fun acc p => insertB2j acc p.2 p.1) []).map
        Prod.fst).Nodup := by
    rw [henum]
    exact keysNodup_foldl a 0 [] (by simp)
  unfold chainB
  by_cases hlen : 200 ≤ a.length
  · rw [if_pos hlen]
    have := lookup_filter
      (fun is => decide ¬ (a.length / 100 + 1 < is.length))
      ((a.enum).foldl (fun acc p => insertB2j acc p.2 p.1) []) c hnodup
    rw [this, hbase]
    by_cases hpop : a.length / 100 + 1 < (posList 0 a c).length
    · rw [if_neg (by simpa using hpop), if_pos ⟨hlen, hpop⟩]
    · rw [if_pos (by simpa using hpop),
        if_neg (fun hcon => hpop hcon.2)]
  · rw [if_neg hlen, hbase, if_neg (fun hcon => hlen hcon.1)]

theorem get?_some_lt : ∀ (l : List α) (t : Nat) (c : α),
    l.get? t = some c → t < l.length := by
  intro l
  induction l with
  | nil =>
    intro t c h
    simp at h
  | cons x rest ih =>
    intro t c h
    cases t with
    | zero => simp
    | succ t =>
      simpa using Nat.succ_lt_succ (ih t c (by simpa using h))

theorem mem_posList (a : List α) :
    ∀ (s j : Nat) (c : α),
      j ∈ posList s a c ↔ ∃ t, j = s + t ∧ a.get? t = some c := by
  induction a with
  | nil =>
    intro s j c
    simp [posList]
  | cons x rest ih =>
    intro s j c
    simp only [posList]
    by_cases hx : x = c
    · rw [if_pos hx]
      constructor
      · intro hm
        rcases List.mem_cons.mp hm with rfl | hm
        · exact ⟨0, by omega, by simp [hx]⟩
        · obtain ⟨t, rfl, hg⟩ := (ih (s + 1) j c).mp hm
          exact ⟨t + 1, by omega, by simpa using hg⟩
      · rintro ⟨t, rfl, hg⟩
        cases t with
        | zero => simp
        | succ t =>
          refine List.mem_cons_of_mem _ ((ih (s + 1) (s + (t + 1)) c).mpr
            ⟨t, by omega, by simpa using hg⟩)
    · rw [if_neg hx]
      constructor
      · intro hm
        obtain ⟨t, rfl, hg⟩ := (ih (s + 1) j c).mp hm
        exact ⟨t + 1, by omega, by simpa using hg⟩
      · rintro ⟨t, rfl, hg⟩
        cases t with
        | zero =>
          exact absurd (by simpa using hg) hx
        | succ t =>
          exact (ih (s + 1) (s + (t + 1)) c).mpr ⟨t, by omega, by simpa using hg⟩

theorem posList_pairwise (a : List α) :
    ∀ (s : Nat) (c : α), (posList s a c).Pairwise (· < ·) := by
  induction a with
  | nil =>
    intro s c
    simp [posList]
  | cons x rest ih =>
    intro s c
    simp only [posList]
    by_cases hx : x = c
    · rw [if_pos hx]
      refine List.Pairwise.cons ?_ (ih (s + 1) c)
      intro j hj
      obtain ⟨t, rfl, -⟩ := (mem_posList rest (s + 1) j c).mp hj
      omega
    · rw [if_neg hx]
      exact ih (s + 1) c

/-- The filtered `b`-index list scanned for row `i` of the self-comparison
dynamic programme (the `js` of `dpStep` at `b = a`, `blo = 0`,
`bhi = a.length`). -/
def jsOf (a : List α) (i : Nat) : List Nat :=
  (match a.get? i with
    | some c => lookupB2j (chainB a) c
    | none => []).filter (fun j => decide (0 ≤ j) && decide (j < a.length))

/-- One inner-loop step of the self-comparison DP row `i`: `prevTbl` is the
previous row's `j2len` table (read, never written, during the row). -/
def rowStep (prevTbl : Nat → Nat) (i : Nat)
    (acc : (Nat → Nat) × FLMatch) (j : Nat) : (Nat → Nat) × FLMatch :=
  let k := (if j = 0 then 0 else prevTbl (j - 1)) + 1
  ((fun x => if x = j then k else acc.1 x),
   if acc.2.size < k then FLMatch.mk (i + 1 - k) (j + 1 - k) k else acc.2)

theorem dpStep_self_eq (a : List α) (st : (Nat → Nat) × FLMatch) (i : Nat) :
    dpStep (chainB a) a 0 a.length st i =
      (jsOf a i).foldl (rowStep st.1 i) ((fun _ => 0), st.2) := rfl

theorem mem_jsOf (a : List α) (i j : Nat) :
    j ∈ jsOf a i ↔
      ∃ c, a.get? i = some c ∧ j ∈ lookupB2j (chainB a) c := by
  unfold jsOf
  cases hget : a.get? i with
  | none => simp
  | some c =>
    simp only [List.mem_filter]
    constructor
    · rintro ⟨hm, -⟩
      exact ⟨c, rfl, hm⟩
    · rintro ⟨c', hc', hm⟩
      have hcc : c = c' := Option.some.inj hc'
      subst hcc
      refine ⟨hm, ?_⟩
      rw [lookup_chainB] at hm
      have hj : a.get? j = some c := by
        by_cases hpop : 200 ≤ a.length ∧
            a.length / 100 + 1 < (posList 0 a c).length
        · rw [if_pos hpop] at hm
          simp at hm
        · rw [if_neg hpop] at hm
          obtain ⟨t, rfl, hg⟩ := (mem_posList a 0 j c).mp hm
          simpa using hg
      have := get?_some_lt a j c hj
      simp [this]

theorem jsOf_closure (a : List α) (i j : Nat) (h : j ∈ jsOf a i) :
    i ∈ jsOf a i ∧ j ∈ jsOf a j ∧ i ∈ jsOf a j ∧
      i < a.length ∧ j < a.length := by
  obtain ⟨c, hi, hm⟩ := (mem_jsOf a i j).mp h
  have hmp : j ∈ lookupB2j (chainB a) c → a.get? j = some c := by
    intro hm
    rw [lookup_chainB] at hm
    by_cases hpop : 200 ≤ a.length ∧
        a.length / 100 + 1 < (posList 0 a c).length
    · rw [if_pos hpop] at hm
      simp at hm
    · rw [if_neg hpop] at hm
      obtain ⟨t, rfl, hg⟩ := (mem_posList a 0 j c).mp hm
      simpa using hg
  have hj : a.get? j = some c := hmp hm
  have hmem : ∀ t, a.get? t = some c → t ∈ lookupB2j (chainB a) c := by
    intro t ht
    rw [lookup_chainB]
    have : t ∈ posList 0 a c := (mem_posList a 0 t c).mpr ⟨t, by omega, ht⟩
    by_cases hpop : 200 ≤ a.length ∧
        a.length / 100 + 1 < (posList 0 a c).length
    · exfalso
      rw [lookup_chainB, if_pos hpop] at hm
      simp at hm
    · rw [if_neg hpop]
      exact this
  exact ⟨(mem_jsOf a i i).mpr ⟨c, hi, hmem i hi⟩,
    (mem_jsOf a j j).mpr ⟨c, hj, hmem j hj⟩,
    (mem_jsOf a j i).mpr ⟨c, hj, hmem i hi⟩,
    get?_some_lt a i c hi, get?_some_lt a j c hj⟩

theorem jsOf_pairwise (a : List α) (i : Nat) :
    (jsOf a i).Pairwise (· < ·) := by
  unfold jsOf
  refine List.Pairwise.sublist (List.filter_sublist _) ?_
  cases hget : a.get? i with
  | none => simp
  | some c =>
    show (lookupB2j (chainB a) c).Pairwise (· < ·)
    rw [lookup_chainB]
    by_cases hpop : 200 ≤ a.length ∧
        a.length / 100 + 1 < (posList 0 a c).length
    · rw [if_pos hpop]
      simp
    · rw [if_neg hpop]
      exact posList_pairwise a 0 c

/-- The value the `j2len` dynamic-programming tables of
`find_longest_match` compute for cell `(i, j)` of the self-comparison: the
run of consecutive surviving matches ending at `(i, j)`. -/
def chainLen (jm : Nat → Nat → Bool) : Nat → Nat → Nat
  | 0, j => if jm 0 j then 1 else 0
  | i + 1, j =>
    if jm (i + 1) j then (if j = 0 then 1 else chainLen jm i (j - 1) + 1)
    else 0

/-- The surviving-match predicate of the self-comparison DP. -/
def jmB (a : List α) (i j : Nat) : Bool := decide (j ∈ jsOf a i)

theorem chainLen_zero_of_not (jm : Nat → Nat → Bool) (i j : Nat)
    (h : jm i j = false) : chainLen jm i j = 0 := by
  cases i with
  | zero => simp [chainLen, h]
  | succ i => simp [chainLen, h]

theorem chainLen_le_succ (jm : Nat → Nat → Bool) :
    ∀ i j, chainLen jm i j ≤ i + 1 := by
  intro i
  induction i with
  | zero =>
    intro j
    by_cases h : jm 0 j <;> simp [chainLen, h]
  | succ i ih =>
    intro j
    by_cases h : jm (i + 1) j
    · simp only [chainLen, if_pos h]
      by_cases hj : j = 0
      · simp [hj]
      · rw [if_neg hj]
        have := ih (j - 1)
        omega
    · simp [chainLen, h]

theorem chainLen_le_diag_right (jm : Nat → Nat → Bool)
    (hs : ∀ i j, jm i j = true → jm i i = true ∧ jm j j = true) :
    ∀ i j, i ≤ j → chainLen jm i j ≤ chainLen jm i i := by
  intro i
  induction i with
  | zero =>
    intro j hj
    by_cases h : jm 0 j
    · simp [chainLen, h, (hs 0 j h).1]
    · simp [chainLen, h]
  | succ i ih =>
    intro j hj
    by_cases h : jm (i + 1) j
    · have hd := (hs (i + 1) j h).1
      simp only [chainLen, if_pos h, if_pos hd]
      rw [if_neg (Nat.succ_ne_zero i), if_neg (by omega : ¬ j = 0)]
      have := ih (j - 1) (by omega)
      simpa [Nat.succ_sub_one] using Nat.succ_le_succ this
    · rw [chainLen_zero_of_not jm (i + 1) j (by simpa using h)]
      exact Nat.zero_le _

theorem chainLen_le_diag_left (jm : Nat → Nat → Bool)
    (hs : ∀ i j, jm i j = true → jm i i = true ∧ jm j j = true) :
    ∀ i j, j ≤ i → chainLen jm i j ≤ chainLen jm j j := by
  intro i
  induction i with
  | zero =>
    intro j hj
    obtain rfl : j = 0 := by omega
    exact le_rfl
  | succ i ih =>
    intro j hj
    by_cases hji : j = i + 1
    · subst hji
      exact le_rfl
    · have hj' : j ≤ i := by omega
      by_cases h : jm (i + 1) j
      · have hd := (hs (i + 1) j h).2
        by_cases hj0 : j = 0
        · subst hj0
          simp only [chainLen, if_pos h, if_pos rfl, if_pos hd]
          exact le_rfl
        · obtain ⟨j', rfl⟩ : ∃ j', j = j' + 1 := ⟨j - 1, by omega⟩
          simp only [chainLen, if_pos h, if_pos hd,
            if_neg (Nat.succ_ne_zero j')]
          have := ih j' (by omega)
          simpa [Nat.succ_sub_one] using Nat.succ_le_succ this
      · rw [chainLen_zero_of_not jm (i + 1) j (by simpa using h)]
        exact Nat.zero_le _

theorem jmB_closed (a : List α) : ∀ i j, jmB a i j = true →
    jmB a i i = true ∧ jmB a j j = true := by
  intro i j h
  have hm : j ∈ jsOf a i := of_decide_eq_true h
  obtain ⟨h1, h2, -, -, -⟩ := jsOf_closure a i j hm
  exact ⟨decide_eq_true h1, decide_eq_true h2⟩

theorem rowStep_imp (prevTbl : Nat → Nat) (i : Nat)
    (acc : (Nat → Nat) × FLMatch) (j : Nat)
    (h : acc.2.size < (if j = 0 then 0 else prevTbl (j - 1)) + 1) :
    rowStep prevTbl i acc j =
      ((fun x => if x = j
          then (if j = 0 then 0 else prevTbl (j - 1)) + 1 else acc.1 x),
       FLMatch.mk (i + 1 - ((if j = 0 then 0 else prevTbl (j - 1)) + 1))
         (j + 1 - ((if j = 0 then 0 else prevTbl (j - 1)) + 1))
         ((if j = 0 then 0 else prevTbl (j - 1)) + 1)) := by
  simp only [rowStep]
  rw [if_pos h]

theorem rowStep_noimp (prevTbl : Nat → Nat) (i : Nat)
    (acc : (Nat → Nat) × FLMatch) (j : Nat)
    (h : ¬ acc.2.size < (if j = 0 then 0 else prevTbl (j - 1)) + 1) :
    rowStep prevTbl i acc j =
      ((fun x => if x = j
          then (if j = 0 then 0 else prevTbl (j - 1)) + 1 else acc.1 x),
       acc.2) := by
  simp only [rowStep]
  rw [if_neg h]

/-- The row invariant of the self-comparison DP: scanning a sorted tail of
surviving columns, the running best stays a diagonal in-range block, its
size only grows, every scanned cell ends up dominated, and the new table
records the chain lengths of the scanned columns. -/
theorem rowFold_inv (a : List α) (prevTbl : Nat → Nat) (i : Nat)
    (hi : i < a.length)
    (hkv : ∀ j, j ∈ jsOf a i →
      (if j = 0 then 0 else prevTbl (j - 1)) + 1 = chainLen (jmB a) i j) :
    ∀ (L : List Nat) (acc : (Nat → Nat) × FLMatch),
      (∀ j ∈ L, j ∈ jsOf a i) →
      L.Pairwise (· < ·) →
      acc.2.i = acc.2.j →
      acc.2.i + acc.2.size ≤ a.length →
      (∀ j, j < i → chainLen (jmB a) j j ≤ acc.2.size) →
      (i ∈ L ∨ chainLen (jmB a) i i ≤ acc.2.size) →
      (L.foldl (rowStep prevTbl i) acc).2.i
          = (L.foldl (rowStep prevTbl i) acc).2.j ∧
        (L.foldl (rowStep prevTbl i) acc).2.i
            + (L.foldl (rowStep prevTbl i) acc).2.size ≤ a.length ∧
        acc.2.size ≤ (L.foldl (rowStep prevTbl i) acc).2.size ∧
        (∀ j ∈ L,
          chainLen (jmB a) i j ≤ (L.foldl (rowStep prevTbl i) acc).2.size) ∧
        (∀ j, (L.foldl (rowStep prevTbl i) acc).1 j =
          if j ∈ L then chainLen (jmB a) i j else acc.1 j) := by
  intro L
  induction L with
  | nil =>
    intro acc h1 h2 h3 h4 h5 h6
    refine ⟨h3, h4, le_rfl, by simp, fun j => by simp⟩
  | cons j0 L' ih =>
    intro acc hmem hpw hdiag hbnd hHD hinv
    obtain ⟨hlt, hpw'⟩ := List.pairwise_cons.mp hpw
    have hj0 : j0 ∈ jsOf a i := hmem j0 (List.mem_cons_self j0 L')
    have hk0 : (if j0 = 0 then 0 else prevTbl (j0 - 1)) + 1
        = chainLen (jmB a) i j0 := hkv j0 hj0
    simp only [List.foldl_cons]
    by_cases himp :
        acc.2.size < (if j0 = 0 then 0 else prevTbl (j0 - 1)) + 1
    · have hji : j0 = i := by
        rcases Nat.lt_trichotomy j0 i with hlt0 | heq | hgt
        · exfalso
          have h1 : chainLen (jmB a) i j0 ≤ chainLen (jmB a) j0 j0 :=
            chainLen_le_diag_left (jmB a) (jmB_closed a) i j0 (by omega)
          have h2 : chainLen (jmB a) j0 j0 ≤ acc.2.size := hHD j0 hlt0
          omega
        · exact heq
        · exfalso
          have h1 : chainLen (jmB a) i j0 ≤ chainLen (jmB a) i i :=
            chainLen_le_diag_right (jmB a) (jmB_closed a) i j0 (by omega)
          have h2 : chainLen (jmB a) i i ≤ acc.2.size := by
            rcases hinv with hin | hle
            · rcases List.mem_cons.mp hin with heqi | hin'
              · omega
              · exact absurd (hlt i hin') (by omega)
            · exact hle
          omega
      subst hji
      rw [rowStep_imp prevTbl j0 acc j0 himp]
      have hkle : (if j0 = 0 then 0 else prevTbl (j0 - 1)) + 1 ≤ j0 + 1 := by
        rw [hk0]
        exact chainLen_le_succ (jmB a) j0 j0
      have IH := ih ((fun x => if x = j0
          then (if j0 = 0 then 0 else prevTbl (j0 - 1)) + 1 else acc.1 x),
        FLMatch.mk (j0 + 1 - ((if j0 = 0 then 0 else prevTbl (j0 - 1)) + 1))
          (j0 + 1 - ((if j0 = 0 then 0 else prevTbl (j0 - 1)) + 1))
          ((if j0 = 0 then 0 else prevTbl (j0 - 1)) + 1))
        (fun j hj => hmem j (List.mem_cons_of_mem j0 hj)) hpw' rfl
        (by
          show j0 + 1 - ((if j0 = 0 then 0 else prevTbl (j0 - 1)) + 1)
            + ((if j0 = 0 then 0 else prevTbl (j0 - 1)) + 1) ≤ a.length
          omega)
        (fun j hj => by
          have hd := hHD j hj
          show chainLen (jmB a) j j
            ≤ (if j0 = 0 then 0 else prevTbl (j0 - 1)) + 1
          omega)
        (Or.inr (by
          show chainLen (jmB a) j0 j0
            ≤ (if j0 = 0 then 0 else prevTbl (j0 - 1)) + 1
          omega))
      obtain ⟨i1, i2, i3, i4, i5⟩ := IH
      dsimp only at i3
      refine ⟨i1, i2, by omega, ?_, ?_⟩
      · intro j hj
        rcases List.mem_cons.mp hj with rfl | hj'
        · omega
        · exact i4 j hj'
      · intro j
        rw [i5 j]
        dsimp only
        by_cases hjL : j ∈ L'
        · rw [if_pos hjL, if_pos (List.mem_cons_of_mem j0 hjL)]
        · rw [if_neg hjL]
          by_cases hjj : j = j0
          · subst hjj
            rw [if_pos rfl, if_pos (List.mem_cons_self j L'), hk0]
          · rw [if_neg hjj, if_neg (by
              intro hcon
              rcases List.mem_cons.mp hcon with h | h
              · exact hjj h
              · exact hjL h)]
    · rw [rowStep_noimp prevTbl i acc j0 himp]
      have IH := ih ((fun x => if x = j0
          then (if j0 = 0 then 0 else prevTbl (j0 - 1)) + 1 else acc.1 x),
        acc.2)
        (fun j hj => hmem j (List.mem_cons_of_mem j0 hj)) hpw' hdiag hbnd hHD
        (by
          rcases hinv with hin | hle
          · rcases List.mem_cons.mp hin with heqi | hin'
            · refine Or.inr ?_
              rw [heqi] at hk0 ⊢
              show chainLen (jmB a) j0 j0 ≤ acc.2.size
              omega
            · exact Or.inl hin'
          · exact Or.inr hle)
      obtain ⟨i1, i2, i3, i4, i5⟩ := IH
      dsimp only at i3
      refine ⟨i1, i2, i3, ?_, ?_⟩
      · intro j hj
        rcases List.mem_cons.mp hj with rfl | hj'
        · omega
        · exact i4 j hj'
      · intro j
        rw [i5 j]
        dsimp only
        by_cases hjL : j ∈ L'
        · rw [if_pos hjL, if_pos (List.mem_cons_of_mem j0 hjL)]
        · rw [if_neg hjL]
          by_cases hjj : j = j0
          · subst hjj
            rw [if_pos rfl, if_pos (List.mem_cons_self j L'), hk0]
          · rw [if_neg hjj, if_neg (by
              intro hcon
              rcases List.mem_cons.mp hcon with h | h
              · exact hjj h
              · exact hjL h)]

theorem hkv_of_table (a : List α) (i : Nat) (tbl : Nat → Nat)
    (hT : ∀ j, tbl j = if i = 0 then 0 else chainLen (jmB a) (i - 1) j) :
    ∀ j, j ∈ jsOf a i →
      (if j = 0 then 0 else tbl (j - 1)) + 1 = chainLen (jmB a) i j := by
  intro j hj
  have hjm : jmB a i j = true := decide_eq_true hj
  cases i with
  | zero =>
    by_cases hj0 : j = 0
    · subst hj0
      simp [chainLen, hjm]
    · rw [if_neg hj0, hT (j - 1), if_pos rfl]
      simp [chainLen, hjm]
  | succ i' =>
    by_cases hj0 : j = 0
    · subst hj0
      rw [if_pos rfl]
      simp [chainLen, hjm]
    · rw [if_neg hj0, hT (j - 1), if_neg (Nat.succ_ne_zero i')]
      simp only [chainLen, hjm, if_true, if_neg hj0, Nat.succ_sub_one,
        Nat.add_sub_cancel]

/-- The self-comparison DP state after processing rows `[0, i)`. -/
def dpState (a : List α) (i : Nat) : (Nat → Nat) × FLMatch :=
  (List.range' 0 i).foldl (dpStep (chainB a) a 0 a.length)
    ((fun _ => 0), FLMatch.mk 0 0 0)

theorem dpState_succ (a : List α) (i : Nat) :
    dpState a (i + 1) = dpStep (chainB a) a 0 a.length (dpState a i) i := by
  unfold dpState
  rw [List.range'_1_concat, List.foldl_append]
  simp

/-- The outer invariant of the self-comparison DP: after any prefix of
rows, the table is the chain-length row and the running best is a diagonal
in-range block dominating every processed cell. -/
theorem dpState_inv (a : List α) :
    ∀ (i : Nat), i ≤ a.length →
      (∀ j, (dpState a i).1 j
          = if i = 0 then 0 else chainLen (jmB a) (i - 1) j) ∧
      (dpState a i).2.i = (dpState a i).2.j ∧
      (dpState a i).2.i + (dpState a i).2.size ≤ a.length ∧
      (∀ i' j, i' < i → chainLen (jmB a) i' j ≤ (dpState a i).2.size) := by
  intro i
  induction i with
  | zero =>
    intro hle
    exact ⟨fun j => by simp [dpState], by simp [dpState], by simp [dpState],
      fun i' j h => absurd h (Nat.not_lt_zero i')⟩
  | succ i ih =>
    intro hle
    obtain ⟨hT, hD, hB, hO⟩ := ih (by omega)
    have hi : i < a.length := by omega
    have hkv := hkv_of_table a i (dpState a i).1 hT
    have HR := rowFold_inv a (dpState a i).1 i hi hkv (jsOf a i)
      ((fun _ => 0), (dpState a i).2)
      (fun j hj => hj) (jsOf_pairwise a i) hD hB
      (fun j hj => hO j j hj)
      (by
        by_cases hm : i ∈ jsOf a i
        · exact Or.inl hm
        · refine Or.inr ?_
          rw [chainLen_zero_of_not (jmB a) i i (decide_eq_false hm)]
          exact Nat.zero_le _)
    obtain ⟨r1, r2, r3, r4, r5⟩ := HR
    have hstep : dpState a (i + 1)
        = (jsOf a i).foldl (rowStep (dpState a i).1 i)
            ((fun _ => 0), (dpState a i).2) := by
      rw [dpState_succ, dpStep_self_eq]
    refine ⟨?_, by rw [hstep]; exact r1, by rw [hstep]; exact r2, ?_⟩
    · intro j
      rw [hstep, r5 j, if_neg (Nat.succ_ne_zero i), Nat.add_sub_cancel]
      by_cases hj : j ∈ jsOf a i
      · rw [if_pos hj]
      · rw [if_neg hj, chainLen_zero_of_not (jmB a) i j (decide_eq_false hj)]
    · intro i' j h
      rw [hstep]
      rcases Nat.lt_succ_iff_lt_or_eq.mp h with h' | rfl
      · have h1 := hO i' j h'
        have h2 := r3
        change (dpState a i).2.size ≤ _ at h2
        omega
      · by_cases hj : j ∈ jsOf a i'
        · exact r4 j hj
        · rw [chainLen_zero_of_not (jmB a) i' j (decide_eq_false hj)]
          exact Nat.zero_le _

theorem dpLoop_self (a : List α) :
    (dpLoop (chainB a) a 0 a.length 0 a.length).i
        = (dpLoop (chainB a) a 0 a.length 0 a.length).j ∧
      (dpLoop (chainB a) a 0 a.length 0 a.length).i
        + (dpLoop (chainB a) a 0 a.length 0 a.length).size ≤ a.length := by
  obtain ⟨-, hD, hB, -⟩ := dpState_inv a a.length le_rfl
  have heq : dpLoop (chainB a) a 0 a.length 0 a.length
      = (dpState a a.length).2 := by
    unfold dpLoop dpState
    rw [Nat.sub_zero]
  rw [heq]
  exact ⟨hD, hB⟩

theorem extCond_self (a : List α) (p : Nat) (hp : p < a.length) :
    extCond a a (fun _ => false) false p p = true := by
  unfold extCond
  cases hg : a.get? p with
  | none =>
    exact absurd (List.get?_eq_none.mp hg) (by omega)
  | some c =>
    simp [hg]

theorem extLeftGo_stuck (a b : List α) (bj : α → Bool) (w : Bool)
    (alo blo : Nat) (fuel i j size : Nat) (h : ¬ alo < i) :
    extLeftGo a b bj w alo blo fuel i j size = FLMatch.mk i j size := by
  cases fuel with
  | zero => rfl
  | succ f =>
    simp only [extLeftGo]
    rw [if_neg (fun hc => h hc.1)]

theorem extRightGo_stuck (a b : List α) (bj : α → Bool) (w : Bool)
    (ahi bhi : Nat) (fuel i j size : Nat) (h : ¬ i + size < ahi) :
    extRightGo a b bj w ahi bhi fuel i j size = FLMatch.mk i j size := by
  cases fuel with
  | zero => rfl
  | succ f =>
    simp only [extRightGo]
    rw [if_neg (fun hc => h hc.1)]

theorem extLeft_stuck (a b : List α) (bj : α → Bool) (w : Bool)
    (alo blo i j size : Nat) (h : ¬ alo < i) :
    extLeft a b bj w alo blo i j size = FLMatch.mk i j size := by
  unfold extLeft
  exact extLeftGo_stuck a b bj w alo blo i i j size h

theorem extRight_stuck (a b : List α) (bj : α → Bool) (w : Bool)
    (ahi bhi i j size : Nat) (h : ¬ i + size < ahi) :
    extRight a b bj w ahi bhi i j size = FLMatch.mk i j size := by
  unfold extRight
  exact extRightGo_stuck a b bj w ahi bhi ahi i j size h

/-- The first (non-junk) left-extension loop grows a diagonal block of the
self-comparison all the way to the left margin. -/
theorem extLeftGo_self (a : List α) :
    ∀ (d s : Nat), d ≤ a.length →
      extLeftGo a a (fun _ => false) false 0 0 d d d s
        = FLMatch.mk 0 0 (s + d) := by
  intro d
  induction d with
  | zero =>
    intro s h
    rfl
  | succ d ih =>
    intro s h
    simp only [extLeftGo]
    rw [if_pos ⟨Nat.succ_pos d, Nat.succ_pos d, by
      simpa [Nat.add_sub_cancel] using extCond_self a d (by omega)⟩]
    simp only [Nat.add_sub_cancel]
    rw [ih (s + 1) (by omega), show s + 1 + d = s + (d + 1) from by omega]

/-- The first (non-junk) right-extension loop grows a left-anchored
diagonal block of the self-comparison to the full diagonal. -/
theorem extRightGo_self (a : List α) :
    ∀ (fuel s : Nat), a.length ≤ s + fuel → s ≤ a.length →
      extRightGo a a (fun _ => false) false a.length a.length fuel 0 0 s
        = FLMatch.mk 0 0 a.length := by
  intro fuel
  induction fuel with
  | zero =>
    intro s h1 h2
    obtain rfl : s = a.length := by omega
    rfl
  | succ f ih =>
    intro s h1 h2
    by_cases hs : s < a.length
    · simp only [extRightGo]
      rw [if_pos ⟨by omega, by omega, by
        simpa [Nat.zero_add] using extCond_self a s hs⟩]
      exact ih (s + 1) (by omega) (by omega)
    · obtain rfl : s = a.length := by omega
      simp only [extRightGo]
      rw [if_neg (fun hc => absurd hc.1 (by omega))]

/-- `find_longest_match` over the whole self-comparison rectangle returns
the full diagonal: the DP yields some diagonal block and the raw-equality
extension loops grow it to the margins. -/
theorem findLongestMatch_self (a : List α) :
    findLongestMatch a a (chainB a) (fun _ => false) 0 a.length 0 a.length
      = FLMatch.mk 0 0 a.length := by
  obtain ⟨hD, hB⟩ := dpLoop_self a
  unfold findLongestMatch
  dsimp only
  have h1 : extLeft a a (fun _ => false) false 0 0
      (dpLoop (chainB a) a 0 a.length 0 a.length).i
      (dpLoop (chainB a) a 0 a.length 0 a.length).j
      (dpLoop (chainB a) a 0 a.length 0 a.length).size
      = FLMatch.mk 0 0 ((dpLoop (chainB a) a 0 a.length 0 a.length).size
          + (dpLoop (chainB a) a 0 a.length 0 a.length).i) := by
    rw [← hD]
    unfold extLeft
    exact extLeftGo_self a _ _ (by omega)
  rw [h1]
  dsimp only
  rw [show extRight a a (fun _ => false) false a.length a.length 0 0
      ((dpLoop (chainB a) a 0 a.length 0 a.length).size
        + (dpLoop (chainB a) a 0 a.length 0 a.length).i)
      = FLMatch.mk 0 0 a.length from by
    unfold extRight
    exact extRightGo_self a a.length _ (by omega) (by omega)]
  dsimp only
  rw [extLeft_stuck a a (fun _ => false) true 0 0 0 0 a.length
    (lt_irrefl 0)]
  dsimp only
  rw [extRight_stuck a a (fun _ => false) true a.length a.length 0 0
    a.length (by omega)]

/-- `find_longest_match` over an empty rectangle returns the empty match at
the rectangle's corner. -/
theorem findLongestMatch_empty (a b : List α) (b2j : List (α × List Nat))
    (bj : α → Bool) (x y : Nat) :
    findLongestMatch a b b2j bj x x y y = FLMatch.mk x y 0 := by
  unfold findLongestMatch
  dsimp only
  have h0 : dpLoop b2j a x x y y = FLMatch.mk x y 0 := by
    unfold dpLoop
    rw [Nat.sub_self]
    rfl
  rw [h0]
  dsimp only
  rw [extLeft_stuck a b bj false x y x y 0 (lt_irrefl x)]
  dsimp only
  rw [extRight_stuck a b bj false x y x y 0 (by omega)]
  dsimp only
  rw [extLeft_stuck a b bj true x y x y 0 (lt_irrefl x)]
  dsimp only
  rw [extRight_stuck a b bj true x y x y 0 (by omega)]

theorem matchingBlocksGo_empty (a b : List α) (b2j : List (α × List Nat))
    (bj : α → Bool) (fuel x y : Nat) :
    matchingBlocksGo a b b2j bj fuel x x y y = [] := by
  cases fuel with
  | zero => rfl
  | succ f =>
    simp only [matchingBlocksGo]
    rw [findLongestMatch_empty]
    simp

/-- `get_matching_blocks` of a non-empty sequence against itself: one full
diagonal block followed by the sentinel. -/
theorem getMatchingBlocks_self (a : List α) (hne : a ≠ []) :
    getMatchingBlocks a a
      = [FLMatch.mk 0 0 a.length, FLMatch.mk a.length a.length 0] := by
  have hn : a.length ≠ 0 := fun h => hne (List.length_eq_zero.mp h)
  unfold getMatchingBlocks matchingBlocksRec
  simp only [Nat.sub_zero]
  simp only [matchingBlocksGo]
  rw [findLongestMatch_self]
  dsimp only
  rw [if_pos ⟨hn, Nat.le_refl 0, by omega, Nat.le_refl 0, by omega⟩]
  simp only [Nat.zero_add]
  rw [matchingBlocksGo_empty, matchingBlocksGo_empty]
  simp only [List.nil_append, List.append_nil]
  unfold collapseBlocks
  simp only [List.foldl_cons, List.foldl_nil]
  simp [hn]

/-- `ratio()` of any sequence against itself is exactly `1`. -/
theorem seqRatio_self (a : List α) : seqRatio a a = 1 := by
  by_cases hne : a = []
  · subst hne
    simp [seqRatio]
  · have hn : a.length ≠ 0 := fun h => hne (List.length_eq_zero.mp h)
    unfold seqRatio
    rw [getMatchingBlocks_self a hne]
    dsimp only
    rw [if_pos (by omega : ¬ a.length + a.length = 0)]
    simp only [List.map_cons, List.map_nil, List.sum_cons, List.sum_nil]
    rw [div_eq_one_iff_eq (by
      exact_mod_cast (by omega : ¬ a.length + a.length = 0))]
    push_cast
    ring

end RatioSelf

/-!
Claim C6: highlighting conservativeness.
-/

/-- Claim C6: for a matched pair whose old plain text equals the new plain
text, the similarity is exactly `1` — at or above `tau_max = 0.99` — and
the loop body leaves the state untouched: the working document keeps the
element's unmodified raw markup, nothing is claimed, and the element is
not counted as modified. -/
theorem c6_conservative (oldList : List (List Char × List Char))
    (st : HLState) (e : List Char) (idx : Nat) (r : ℚ)
    (pr : List Char × List Char)
    (hbm : bestMatch oldList st.used (extractText e) = (some idx, r))
    (hpr : oldList.get? idx = some pr)
    (heq : pr.1 = extractText e) :
    r = 1 ∧ stepFn oldList st e = st := by
  obtain ⟨-, pr', hpr', hr⟩ := bestMatch_spec oldList st.used (extractText e)
    idx r hbm
  rw [hpr] at hpr'
  obtain rfl : pr = pr' := Option.some.inj hpr'
  have hr1 : r = 1 := by
    rw [hr, heq]
    exact seqRatio_self (extractText e)
  refine ⟨hr1, stepFn_skip oldList st e idx r hbm ?_⟩
  rw [hr1]
  rintro ⟨-, hcon⟩
  norm_num [SIMILARITY_THRESHOLD_MAX] at hcon

/-- Concrete instantiation of claim C6: a new paragraph identical to the
stored old element is selected at similarity `1` and left untouched. -/
theorem c6_conservative_witness :
    stepFn [("same text".data, "<p>same text</p>".data)]
        ⟨"<main><p>same text</p></main>".data, [], 0⟩
        "<p>same text</p>".data
      = ⟨"<main><p>same text</p></main>".data, [], 0⟩ :=
  (c6_conservative [("same text".data, "<p>same text</p>".data)]
    ⟨"<main><p>same text</p></main>".data, [], 0⟩
    "<p>same text</p>".data 0 1 ("same text".data, "<p>same text</p>".data)
    (by decide) (by decide) (by decide)).2

end LabManual
